import Mathlib

/-!
# Verification of the logcatui core: Match Index, Viewport Controller, Text Wrapper

Shallow embedding of the Rust sources of `logcatui` (an interactive log
viewer).  Rust `usize` values are modelled as `Nat`; the explicit
`usize::MAX` sentinel constant used by the nearest-match computations is
kept literally as `2 ^ 64 - 1`.  Strings are modelled as `List Char`
(byte positions coincide with list positions for the ASCII corpora the
claims quantify over).  `BTreeSet`s are modelled as strictly sorted
lists; `BTreeSet::range` over a sorted list is modelled with `List.filter`
against the range predicate, which is extensionally the same operation.
-/

namespace Logcatui

/-- `usize::MAX`, used by `nearest_match` (src/search/matches.rs) and
`closest` (src/app.rs) as an "infinite distance" sentinel. -/
def USIZE_MAX : Nat := 2 ^ 64 - 1

/-- src/search/matches.rs: `pub type MatchedPosition = (usize, usize);` -/
def MatchedPosition := Nat × Nat
deriving DecidableEq, Repr

/-- src/search/matches.rs `MatchedColumn`: the `positions` field is a
`BTreeSet<MatchedPosition>`, modelled as its sorted iteration order. -/
structure MatchedColumn where
  index : Nat
  positions : List MatchedPosition
deriving DecidableEq, Repr

/-- src/search/matches.rs `MatchedLine`: the `columns` field is a
`BTreeSet<MatchedColumn>` (wrapped in `MatchedColumns`), modelled as its
sorted iteration order. -/
structure MatchedLine where
  index : Nat
  columns : List MatchedColumn
deriving DecidableEq, Repr

/-- Rust derived `Ord` on the tuple `(usize, usize)`: lexicographic. -/
def posCompare (a b : MatchedPosition) : Ordering :=
  (compare a.1 b.1).then (compare a.2 b.2)

/-- Rust `Ord` on `BTreeSet<T>`: lexicographic over the iteration order. -/
def listCompare (cmp : α → α → Ordering) : List α → List α → Ordering
  | [], [] => .eq
  | [], _ :: _ => .lt
  | _ :: _, [] => .gt
  | a :: as_, b :: bs => (cmp a b).then (listCompare cmp as_ bs)

/-- Rust derived `Ord` on `MatchedColumn`: fields in declaration order
(`index`, then `positions`). -/
def colCompare (a b : MatchedColumn) : Ordering :=
  (compare a.index b.index).then (listCompare posCompare a.positions b.positions)

/-- Rust derived `Ord` on `MatchedLine`: fields in declaration order
(`index`, then `columns`). -/
def lineCompare (a b : MatchedLine) : Ordering :=
  (compare a.index b.index).then (listCompare colCompare a.columns b.columns)

/-- `MatchedLine::sentinel` (src/search/matches.rs): given index, default
(empty) column set. -/
def MatchedLine.sentinel (index : Nat) : MatchedLine :=
  { index := index, columns := [] }

/-- `implementation::distance` (src/search/matches.rs) and the identical
`distance` in src/app.rs. -/
def distance (a b : Nat) : Nat :=
  match compare a b with
  | .lt => b - a
  | .eq => 0
  | .gt => a - b

/-- The sorted-set invariant of `BTreeSet<MatchedLine>`: iteration order is
strictly increasing; since `MatchedLine`s are keyed by `line_index`
(at most one per line), indices strictly increase. -/
def LinesSorted (s : List MatchedLine) : Prop :=
  List.Chain' (fun a b => a.index < b.index) s

instance : DecidablePred LinesSorted := fun s =>
  inferInstanceAs (Decidable (List.Chain' _ s))

/-- Data-model invariant (spec §3): a `MatchedLine` has a non-empty column
set.  Every line produced by the index build has at least one matched
column (`update_results` / `State::update` drop empty lines). -/
def ColumnsNonempty (s : List MatchedLine) : Prop :=
  ∀ e ∈ s, e.columns ≠ []

instance : DecidablePred ColumnsNonempty := fun s =>
  inferInstanceAs (Decidable (∀ e ∈ s, e.columns ≠ []))

/-- `implementation::nearest_match` (src/search/matches.rs).  The two
`range` calls on the sorted set are modelled with `filter`:
`(Unbounded, Included(&sentinel))` keeps elements not greater than the
sentinel and `next_back` takes the last; `(Included(&sentinel), Unbounded)`
keeps elements not less than the sentinel and `next` takes the first. -/
def nearest_match (s : List MatchedLine) (index : Nat) : Option MatchedLine :=
  let sentinel := MatchedLine.sentinel index
  let lower := (s.filter fun e => lineCompare e sentinel ≠ .gt).getLast?
  let upper := (s.filter fun e => lineCompare e sentinel ≠ .lt).head?
  if distance index ((lower.map MatchedLine.index).getD USIZE_MAX)
      ≤ distance index ((upper.map MatchedLine.index).getD USIZE_MAX)
  then lower
  else upper

/-- `implementation::previous_match` (src/search/matches.rs):
`range((Unbounded, Excluded(&sentinel(index)))).next_back()`. -/
def previous_match (s : List MatchedLine) (index : Nat) : Option MatchedLine :=
  (s.filter fun e => lineCompare e (MatchedLine.sentinel index) = .lt).getLast?

/-- `implementation::next_match` (src/search/matches.rs):
`range((Included(&sentinel(index + 1)), Unbounded)).next()`. -/
def next_match (s : List MatchedLine) (index : Nat) : Option MatchedLine :=
  (s.filter fun e => lineCompare e (MatchedLine.sentinel (index + 1)) ≠ .lt).head?

/-- `implementation::exact_match` (src/search/matches.rs):
`range((Included(&sentinel(index)), Excluded(&sentinel(index + 1)))).next()`. -/
def exact_match (s : List MatchedLine) (index : Nat) : Option MatchedLine :=
  (s.filter fun e =>
    lineCompare e (MatchedLine.sentinel index) ≠ .lt ∧
    lineCompare e (MatchedLine.sentinel (index + 1)) = .lt).head?

/-! ## Order characterizations: comparing a real line against a sentinel -/

theorem listCompare_nil_nil (cmp : α → α → Ordering) :
    listCompare cmp [] [] = .eq := rfl

theorem listCompare_cons_nil (cmp : α → α → Ordering) (a : α) (l : List α) :
    listCompare cmp (a :: l) [] = .gt := rfl

theorem listCompare_nil_right (cmp : α → α → Ordering) (l : List α) (h : l ≠ []) :
    listCompare cmp l [] = .gt := by
  cases l with
  | nil => exact absurd rfl h
  | cons a t => rfl

theorem lineCompare_sentinel_eq_lt {e : MatchedLine} {i : Nat} :
    lineCompare e (MatchedLine.sentinel i) = .lt ↔ e.index < i := by
  unfold lineCompare MatchedLine.sentinel
  rcases Nat.lt_trichotomy e.index i with h | h | h
  · simp [Nat.compare_eq_lt.mpr h, Ordering.then, h]
  · subst h
    rw [Nat.compare_eq_eq.mpr rfl]
    by_cases hc2 : e.columns = []
    · rw [hc2, listCompare_nil_nil]
      simp [Ordering.then]
    · rw [listCompare_nil_right _ _ hc2]
      simp [Ordering.then]
  · simp [Nat.compare_eq_gt.mpr h, Ordering.then, Nat.lt_asymm h]

theorem lineCompare_sentinel_eq_gt {e : MatchedLine} {i : Nat} :
    lineCompare e (MatchedLine.sentinel i) = .gt ↔
      i < e.index ∨ (e.index = i ∧ e.columns ≠ []) := by
  unfold lineCompare MatchedLine.sentinel
  rcases Nat.lt_trichotomy e.index i with h | h | h
  · simp [Nat.compare_eq_lt.mpr h, Ordering.then, Nat.lt_asymm h, Nat.ne_of_lt h]
  · subst h
    rw [Nat.compare_eq_eq.mpr rfl]
    by_cases hc2 : e.columns = []
    · rw [hc2, listCompare_nil_nil]
      simp [Ordering.then]
    · rw [listCompare_nil_right _ _ hc2]
      simp [Ordering.then, hc2]
  · simp [Nat.compare_eq_gt.mpr h, Ordering.then, h, Nat.ne_of_gt h]

theorem lineCompare_sentinel_ne_lt {e : MatchedLine} {i : Nat} :
    lineCompare e (MatchedLine.sentinel i) ≠ .lt ↔ i ≤ e.index := by
  rw [Ne, lineCompare_sentinel_eq_lt]
  exact not_lt

theorem lineCompare_sentinel_ne_gt {e : MatchedLine} {i : Nat}
    (hc : e.columns ≠ []) :
    lineCompare e (MatchedLine.sentinel i) ≠ .gt ↔ e.index < i := by
  rw [Ne]
  rw [lineCompare_sentinel_eq_gt]
  constructor
  · intro h
    rcases Nat.lt_trichotomy e.index i with h2 | h2 | h2
    · exact h2
    · exact absurd (Or.inr ⟨h2, hc⟩) h
    · exact absurd (Or.inl h2) h
  · intro h
    rintro (h2 | ⟨h2, _⟩)
    · exact Nat.lt_asymm h h2
    · exact absurd h (by omega)

/-! ## Sorted-list helper lemmas -/

instance : IsTrans MatchedLine fun a b => a.index < b.index :=
  ⟨fun _ _ _ h h2 => Nat.lt_trans h h2⟩

theorem LinesSorted.pairwise {s : List MatchedLine} (hs : LinesSorted s) :
    List.Pairwise (fun a b => a.index < b.index) s :=
  List.chain'_iff_pairwise.mp hs

theorem sorted_head?_min {l : List MatchedLine} (hs : LinesSorted l)
    {x : MatchedLine} (hx : l.head? = some x) : ∀ e ∈ l, x.index ≤ e.index := by
  obtain ⟨ys, rfl⟩ := List.head?_eq_some_iff.mp hx
  intro e he
  rcases List.mem_cons.mp he with rfl | he
  · exact le_refl _
  · exact le_of_lt (List.rel_of_pairwise_cons hs.pairwise he)

theorem sorted_getLast?_max {l : List MatchedLine} (hs : LinesSorted l)
    {x : MatchedLine} (hx : l.getLast? = some x) : ∀ e ∈ l, e.index ≤ x.index := by
  obtain ⟨ys, rfl⟩ := List.getLast?_eq_some_iff.mp hx
  intro e he
  rcases List.mem_append.mp he with he | he
  · have := (List.pairwise_append.mp hs.pairwise).2.2
    exact le_of_lt (this e he x (List.mem_singleton_self x))
  · rw [List.mem_singleton.mp he]

theorem sorted_index_inj {l : List MatchedLine} (hs : LinesSorted l)
    {a b : MatchedLine} (ha : a ∈ l) (hb : b ∈ l) (hab : a.index = b.index) :
    a = b := by
  by_contra hne
  have hp : List.Pairwise (fun a b : MatchedLine => a.index ≠ b.index) l :=
    hs.pairwise.imp fun h => Nat.ne_of_lt h
  exact hp.forall (fun x y h => h.symm) ha hb hne hab

theorem filter_getLast?_none {l : List MatchedLine} {p : MatchedLine → Bool}
    (h : (l.filter p).getLast? = none) : ∀ e ∈ l, ¬ p e = true := by
  rw [List.getLast?_eq_none_iff] at h
  exact List.filter_eq_nil_iff.mp h

theorem filter_getLast?_some {l : List MatchedLine} (hs : LinesSorted l)
    {p : MatchedLine → Bool} {x : MatchedLine}
    (h : (l.filter p).getLast? = some x) :
    x ∈ l ∧ p x = true ∧ ∀ e ∈ l, p e = true → e.index ≤ x.index := by
  have hsub := List.filter_sublist (p := p) l
  have hs2 : LinesSorted (l.filter p) := List.Chain'.sublist hs hsub
  have hx : x ∈ l.filter p := by
    obtain ⟨ys, hy⟩ := List.getLast?_eq_some_iff.mp h
    rw [hy]
    exact List.mem_append.mpr (Or.inr (List.mem_singleton_self x))
  obtain ⟨hxl, hpx⟩ := List.mem_filter.mp hx
  refine ⟨hxl, hpx, fun e he hpe => ?_⟩
  exact sorted_getLast?_max hs2 h e (List.mem_filter.mpr ⟨he, hpe⟩)

theorem filter_head?_none {l : List MatchedLine} {p : MatchedLine → Bool}
    (h : (l.filter p).head? = none) : ∀ e ∈ l, ¬ p e = true := by
  rw [List.head?_eq_none_iff] at h
  exact List.filter_eq_nil_iff.mp h

theorem filter_head?_some {l : List MatchedLine} (hs : LinesSorted l)
    {p : MatchedLine → Bool} {x : MatchedLine}
    (h : (l.filter p).head? = some x) :
    x ∈ l ∧ p x = true ∧ ∀ e ∈ l, p e = true → x.index ≤ e.index := by
  have hsub := List.filter_sublist (p := p) l
  have hs2 : LinesSorted (l.filter p) := List.Chain'.sublist hs hsub
  have hx : x ∈ l.filter p := by
    obtain ⟨ys, hy⟩ := List.head?_eq_some_iff.mp h
    rw [hy]
    exact List.mem_cons_self x ys
  obtain ⟨hxl, hpx⟩ := List.mem_filter.mp hx
  refine ⟨hxl, hpx, fun e he hpe => ?_⟩
  exact sorted_head?_min hs2 h e (List.mem_filter.mpr ⟨he, hpe⟩)

/-! ## C3: next / previous lookups -/

theorem next_match_pred {e : MatchedLine} {i : Nat} :
    (decide (lineCompare e (MatchedLine.sentinel (i + 1)) ≠ .lt) = true) ↔
      i < e.index := by
  rw [decide_eq_true_eq, lineCompare_sentinel_ne_lt]
  exact Nat.succ_le

theorem previous_match_pred {e : MatchedLine} {i : Nat} :
    (decide (lineCompare e (MatchedLine.sentinel i) = .lt) = true) ↔
      e.index < i := by
  rw [decide_eq_true_eq, lineCompare_sentinel_eq_lt]

/-- C3: `next(i)` returns the matched line with the smallest `line_index`
strictly greater than `i` (and `none` when there is none — no wrap-around);
`previous(i)` returns the matched line with the largest `line_index`
strictly less than `i` (and `none` when there is none); consequently for
adjacent matches `a < b` with nothing strictly between them,
`next(a) = some b` and `previous(b) = some a`. -/
theorem next_previous_match_spec (s : List MatchedLine) (hs : LinesSorted s)
    (i : Nat) :
    (next_match s i = none ↔ ∀ e ∈ s, e.index ≤ i) ∧
    (∀ m, next_match s i = some m →
      m ∈ s ∧ i < m.index ∧ ∀ e ∈ s, i < e.index → m.index ≤ e.index) ∧
    (previous_match s i = none ↔ ∀ e ∈ s, i ≤ e.index) ∧
    (∀ m, previous_match s i = some m →
      m ∈ s ∧ m.index < i ∧ ∀ e ∈ s, e.index < i → e.index ≤ m.index) ∧
    (∀ a ∈ s, ∀ b ∈ s, a.index < b.index →
      (∀ e ∈ s, ¬(a.index < e.index ∧ e.index < b.index)) →
      next_match s a.index = some b ∧ previous_match s b.index = some a) := by
  have hnext_none : ∀ j : Nat, next_match s j = none ↔ ∀ e ∈ s, e.index ≤ j := by
    intro j
    unfold next_match
    rw [List.head?_eq_none_iff, List.filter_eq_nil_iff]
    constructor
    · intro h e he
      have := h e he
      rw [next_match_pred] at this
      omega
    · intro h e he
      rw [next_match_pred]
      have := h e he
      omega
  have hnext_some : ∀ j : Nat, ∀ m, next_match s j = some m →
      m ∈ s ∧ j < m.index ∧ ∀ e ∈ s, j < e.index → m.index ≤ e.index := by
    intro j m h
    unfold next_match at h
    obtain ⟨hm, hp, hmin⟩ := filter_head?_some hs h
    rw [next_match_pred] at hp
    refine ⟨hm, hp, fun e he hei => ?_⟩
    exact hmin e he (next_match_pred.mpr hei)
  have hprev_none : ∀ j : Nat, previous_match s j = none ↔ ∀ e ∈ s, j ≤ e.index := by
    intro j
    unfold previous_match
    rw [List.getLast?_eq_none_iff, List.filter_eq_nil_iff]
    constructor
    · intro h e he
      have := h e he
      rw [previous_match_pred] at this
      omega
    · intro h e he
      rw [previous_match_pred]
      have := h e he
      omega
  have hprev_some : ∀ j : Nat, ∀ m, previous_match s j = some m →
      m ∈ s ∧ m.index < j ∧ ∀ e ∈ s, e.index < j → e.index ≤ m.index := by
    intro j m h
    unfold previous_match at h
    obtain ⟨hm, hp, hmax⟩ := filter_getLast?_some hs h
    rw [previous_match_pred] at hp
    refine ⟨hm, hp, fun e he hei => ?_⟩
    exact hmax e he (previous_match_pred.mpr hei)
  refine ⟨hnext_none i, hnext_some i, hprev_none i, hprev_some i, ?_⟩
  intro a ha b hb hab hgap
  constructor
  · rcases hn : next_match s a.index with _ | m
    · exact absurd (((hnext_none a.index).mp hn) b hb) (by omega)
    · obtain ⟨hm, hma, hmin⟩ := hnext_some a.index m hn
      have h1 : m.index ≤ b.index := hmin b hb hab
      have h2 : ¬(a.index < m.index ∧ m.index < b.index) := hgap m hm
      have : m.index = b.index := by omega
      rw [sorted_index_inj hs hm hb this]
  · rcases hn : previous_match s b.index with _ | m
    · exact absurd (((hprev_none b.index).mp hn) a ha) (by omega)
    · obtain ⟨hm, hmb, hmax⟩ := hprev_some b.index m hn
      have h1 : a.index ≤ m.index := hmax a ha hab
      have h2 : ¬(a.index < m.index ∧ m.index < b.index) := hgap m hm
      have : m.index = a.index := by omega
      rw [sorted_index_inj hs hm ha this]

/-! ## Text Wrapper (src/text_utils.rs)

`wrap_indices` consumes the word-boundary start positions produced by
`text.split_word_bound_indices()`.  Unicode segmentation is an external
collaborator (the `unicode-segmentation` crate), so the boundary list is a
parameter here; the claims constrain it by the properties segmentation
guarantees (strictly increasing positions below `text.len()`, starting at
position 0 for a non-empty text). -/

/-- The `for` loop of `wrap_indices`: state is the emitted split list
(accumulated in order), `prev` and the running threshold `len`. -/
def wrapLoop (w : Nat) : List Nat → Option Nat → Nat → List Nat
  | [], _, _ => []
  | pos :: rest, prev, len =>
    if pos > len then
      match prev with
      | some q => q :: wrapLoop w rest (some pos) (len + w)
      | none => wrapLoop w rest (some pos) (len + w)
    else
      wrapLoop w rest (some pos) len

/-- `wrap_indices` (src/text_utils.rs): scan the word boundaries chained
with the implicit final boundary `text.len()`, starting from threshold
`max_width` and empty output. -/
def wrap_indices (bounds : List Nat) (textLen : Nat) (max_width : Nat) :
    List Nat :=
  wrapLoop max_width (bounds ++ [textLen]) none max_width

/-- The stateful `map` inside `split_string_at_indices`: `off` is the
consumed offset and `ms` the remaining suffix; the final remainder is
pushed at the end. -/
def splitLoop : List Nat → Nat → List Char → List (List Char)
  | [], _, ms => [ms]
  | index :: rest, off, ms =>
      ms.take (index - off) :: splitLoop rest index (ms.drop (index - off))

/-- `split_string_at_indices` (src/text_utils.rs).  The function asserts
`max(indices) < s.len()` and relies on the indices being ascending
(`index - off` would underflow otherwise); both hold for the output of
`wrap_indices` (proved below). -/
def split_string_at_indices (s : List Char) (indices : List Nat) :
    List (List Char) :=
  splitLoop indices 0 s

/-- `tui::text::Text::from(s)` (the `Spans`-era tui-rs this code uses):
`Text::raw` builds one rendered line per element of `s.lines()`.  For an
empty string `str::lines()` yields nothing, so an empty part contributes
zero rendered lines; a log row is a single line, so a non-empty wrap part
(which contains no newline) renders as exactly one line. -/
def textFromLines (part : List Char) : List (List Char) :=
  if part = [] then [] else [part]

/-- `create_text` (src/text_utils.rs), as the list of rendered lines of the
returned `tui::text::Text`: `Text::from` of the first split part, extended
with `Text::from` of each remaining part, each part contributing its
rendered lines. -/
def create_text (bounds : List Nat) (content : List Char) (wrap_width : Nat) :
    List (List Char) :=
  if content.length > wrap_width then
    ((split_string_at_indices content
      (wrap_indices bounds content.length wrap_width)).map textFromLines).flatten
  else
    textFromLines content

/-- The `(start, end)` offset spans of the lines emitted by the wrapper:
consecutive pairs of `0 :: splits ++ [textLen]`.  The width of an emitted
line is `span.2 - span.1`. -/
def lineSpans (bounds : List Nat) (textLen max_width : Nat) :
    List (Nat × Nat) :=
  let cuts := 0 :: wrap_indices bounds textLen max_width ++ [textLen]
  cuts.zip cuts.tail

/-! ## Text Wrapper lemmas -/

theorem chain'_zip_pairs {R : Nat → Nat → Prop} :
    ∀ l : List Nat, List.Chain' R l → ∀ a b, (a, b) ∈ l.zip l.tail → R a b := by
  intro l
  induction l with
  | nil => intro _ a b h; cases h
  | cons x t ih =>
    intro hc a b hm
    cases t with
    | nil => cases hm
    | cons y t2 =>
      rcases List.mem_cons.mp hm with h | h
      · obtain ⟨h1, h2⟩ := Prod.mk.injEq .. ▸ h
        cases h
        exact (List.chain'_cons.mp hc).1
      · exact ih (List.chain'_cons.mp hc).2 a b h

theorem getLast?_cons_getD (a d : Nat) (l : List Nat) :
    ((a :: l).getLast?).getD d = (l.getLast?).getD a := by
  cases l with
  | nil => rfl
  | cons b t =>
    rw [List.getLast?_cons_cons]
    obtain ⟨y, hy⟩ : ∃ y, (b :: t).getLast? = some y := by
      cases h : (b :: t).getLast? with
      | none => exact absurd (List.getLast?_eq_none_iff.mp h) (by simp)
      | some y => exact ⟨y, rfl⟩
    rw [hy]
    rfl

theorem chain_lt_mem_lt_last {l : List Nat} {t : Nat}
    (h : List.Chain' (· < ·) (l ++ [t])) : ∀ x ∈ l, x < t := by
  have hp := List.chain'_iff_pairwise.mp h
  intro x hx
  exact (List.pairwise_append.mp hp).2.2 x hx t (List.mem_singleton_self t)

/-- Invariant of the `wrap_indices` loop once `prev` is populated: `p` is the
last processed boundary, `lenT` the running threshold, `s` the start offset
of the line currently being accumulated.  When all inter-boundary gaps fit
in `w`: every emitted split is an earlier boundary (strictly before some
remaining one), splits strictly increase, and all line widths (consecutive
differences of `s`, the splits, and the final boundary) are at most
`2 * w - 1`. -/
theorem wrapLoop_spec (w : Nat) :
    ∀ (ps : List Nat) (p lenT s : Nat),
    List.Chain' (· < ·) (p :: ps) →
    List.Chain' (fun a b => b - a ≤ w) (p :: ps) →
    p ≤ lenT → lenT < s + 2 * w → s ≤ p →
    (∀ x ∈ wrapLoop w ps (some p) lenT, (x = p ∨ x ∈ ps) ∧ ∃ y ∈ ps, x < y) ∧
    List.Chain' (· < ·) (wrapLoop w ps (some p) lenT) ∧
    List.Chain' (fun a b => b - a ≤ 2 * w - 1)
      (s :: wrapLoop w ps (some p) lenT ++ [(ps.getLast?).getD p]) := by
  intro ps
  induction ps with
  | nil =>
    intro p lenT s _ _ hpl hsl hsp
    refine ⟨fun x hx => absurd hx (by simp [wrapLoop]), by simp [wrapLoop], ?_⟩
    simp only [wrapLoop, List.nil_append, List.getLast?_nil, Option.getD_none]
    exact List.chain'_pair.mpr (by omega)
  | cons pos rest ih =>
    intro p lenT s hinc hgap hpl hsl hsp
    have hppos : p < pos := (List.chain'_cons.mp hinc).1
    have hgappos : pos - p ≤ w := (List.chain'_cons.mp hgap).1
    have hinc2 : List.Chain' (· < ·) (pos :: rest) := (List.chain'_cons.mp hinc).2
    have hgap2 : List.Chain' (fun a b => b - a ≤ w) (pos :: rest) :=
      (List.chain'_cons.mp hgap).2
    by_cases htr : pos > lenT
    · -- the boundary exceeds the threshold: emit a split at `p`
      have heq : wrapLoop w (pos :: rest) (some p) lenT =
          p :: wrapLoop w rest (some pos) (lenT + w) := by
        simp [wrapLoop, htr]
      obtain ⟨iha, ihb, ihc⟩ := ih pos (lenT + w) p hinc2 hgap2
        (by omega) (by omega) (le_of_lt hppos)
      have hmem : ∀ x ∈ wrapLoop w rest (some pos) (lenT + w), p < x := by
        intro x hx
        rcases (iha x hx).1 with rfl | hxr
        · exact hppos
        · exact lt_trans hppos
            (List.rel_of_pairwise_cons (List.chain'_iff_pairwise.mp hinc2) hxr)
      rw [heq]
      refine ⟨?_, ?_, ?_⟩
      · intro x hx
        rcases List.mem_cons.mp hx with rfl | hx
        · exact ⟨Or.inl rfl, pos, List.mem_cons_self pos rest, hppos⟩
        · obtain ⟨h1, y, hy, hxy⟩ := iha x hx
          refine ⟨Or.inr ?_, y, List.mem_cons_of_mem pos hy, hxy⟩
          rcases h1 with rfl | h1
          · exact List.mem_cons_self x rest
          · exact List.mem_cons_of_mem pos h1
      · rw [List.chain'_cons']
        exact ⟨fun y hy => hmem y (List.mem_of_mem_head? hy), ihb⟩
      · rw [getLast?_cons_getD]
        rw [List.cons_append, List.cons_append]
        rw [List.chain'_cons]
        refine ⟨by omega, ?_⟩
        rw [List.cons_append] at ihc
        exact ihc
    · -- the boundary fits: it just becomes the new `prev`
      have heq : wrapLoop w (pos :: rest) (some p) lenT =
          wrapLoop w rest (some pos) lenT := by
        simp [wrapLoop, htr]
      obtain ⟨iha, ihb, ihc⟩ := ih pos lenT s hinc2 hgap2
        (by omega) hsl (by omega)
      rw [heq, getLast?_cons_getD]
      refine ⟨?_, ihb, ihc⟩
      intro x hx
      obtain ⟨h1, y, hy, hxy⟩ := iha x hx
      refine ⟨Or.inr ?_, y, List.mem_cons_of_mem pos hy, hxy⟩
      rcases h1 with rfl | h1
      · exact List.mem_cons_self x rest
      · exact List.mem_cons_of_mem pos h1

/-- Membership/sortedness of the emitted splits alone (no assumption on the
inter-boundary gaps): every split is an earlier boundary and splits
strictly increase. -/
theorem wrapLoop_mem_lt (w : Nat) :
    ∀ (ps : List Nat) (p lenT : Nat),
    List.Chain' (· < ·) (p :: ps) →
    (∀ x ∈ wrapLoop w ps (some p) lenT, (x = p ∨ x ∈ ps) ∧ ∃ y ∈ ps, x < y) ∧
    List.Chain' (· < ·) (wrapLoop w ps (some p) lenT) := by
  intro ps
  induction ps with
  | nil =>
    intro p lenT _
    exact ⟨fun x hx => absurd hx (by simp [wrapLoop]), by simp [wrapLoop]⟩
  | cons pos rest ih =>
    intro p lenT hinc
    have hppos : p < pos := (List.chain'_cons.mp hinc).1
    have hinc2 : List.Chain' (· < ·) (pos :: rest) := (List.chain'_cons.mp hinc).2
    by_cases htr : pos > lenT
    · have heq : wrapLoop w (pos :: rest) (some p) lenT =
          p :: wrapLoop w rest (some pos) (lenT + w) := by
        simp [wrapLoop, htr]
      obtain ⟨iha, ihb⟩ := ih pos (lenT + w) hinc2
      have hmem : ∀ x ∈ wrapLoop w rest (some pos) (lenT + w), p < x := by
        intro x hx
        rcases (iha x hx).1 with rfl | hxr
        · exact hppos
        · exact lt_trans hppos
            (List.rel_of_pairwise_cons (List.chain'_iff_pairwise.mp hinc2) hxr)
      rw [heq]
      constructor
      · intro x hx
        rcases List.mem_cons.mp hx with rfl | hx
        · exact ⟨Or.inl rfl, pos, List.mem_cons_self pos rest, hppos⟩
        · obtain ⟨h1, y, hy, hxy⟩ := iha x hx
          refine ⟨Or.inr ?_, y, List.mem_cons_of_mem pos hy, hxy⟩
          rcases h1 with rfl | h1
          · exact List.mem_cons_self x rest
          · exact List.mem_cons_of_mem pos h1
      · rw [List.chain'_cons']
        exact ⟨fun y hy => hmem y (List.mem_of_mem_head? hy), ihb⟩
    · have heq : wrapLoop w (pos :: rest) (some p) lenT =
          wrapLoop w rest (some pos) lenT := by
        simp [wrapLoop, htr]
      obtain ⟨iha, ihb⟩ := ih pos lenT hinc2
      rw [heq]
      refine ⟨?_, ihb⟩
      intro x hx
      obtain ⟨h1, y, hy, hxy⟩ := iha x hx
      refine ⟨Or.inr ?_, y, List.mem_cons_of_mem pos hy, hxy⟩
      rcases h1 with rfl | h1
      · exact List.mem_cons_self x rest
      · exact List.mem_cons_of_mem pos h1

/-- Modelled from the spec's words (claim C6, for refutation): every line
emitted by the wrapper has width at most `max_width`, except a line that is
a single word with no internal word boundary before the limit. -/
def wrapWidthClaim (bounds : List Nat) (textLen w : Nat) : Prop :=
  ∀ p ∈ lineSpans bounds textLen w,
    p.2 - p.1 ≤ w ∨ ∀ q ∈ bounds, ¬(p.1 < q ∧ q < p.2 ∧ q ≤ p.1 + w)

instance (bounds : List Nat) (textLen w : Nat) :
    Decidable (wrapWidthClaim bounds textLen w) := by
  unfold wrapWidthClaim
  infer_instance

/-- C6 counterexample: boundaries of the text `"aaaaaaaaaa bb cc dd ee"`
(a 10-byte word followed by four 2-byte words) at width 4.  The wrapper
emits the splits `[0, 10, 11, 16, 20]`; the line spanning `[11, 16)`
(`"bb cc"`) has width 5 > 4 and contains the internal word boundaries 13
and 14 below the limit, so the claimed exception does not apply. -/
theorem wrapWidthClaim_counterexample :
    ¬ wrapWidthClaim [0, 10, 11, 13, 14, 16, 17, 19, 20] 22 4 := by decide

/-- C6 (amended): splits always fall on word boundaries, but an emitted
line may be wider than `max_width` even when it contains internal word
boundaries, because the running threshold advances by exactly `max_width`
per split and can lag behind long words.  When every inter-boundary gap
(word) fits in `max_width`, every emitted line has width at most
`2 * max_width - 1`. -/
theorem wrap_indices_width_bound (bounds : List Nat) (textLen w : Nat)
    (hinc : List.Chain' (· < ·) (bounds ++ [textLen]))
    (hgap : List.Chain' (fun a b => b - a ≤ w) (bounds ++ [textLen]))
    (hnil : bounds = [] → textLen = 0)
    (hhead : ∀ b0 ∈ bounds.head?, b0 = 0) :
    (∀ x ∈ wrap_indices bounds textLen w, x ∈ bounds) ∧
    (∀ p ∈ lineSpans bounds textLen w, p.2 - p.1 ≤ 2 * w - 1) := by
  cases bounds with
  | nil =>
    have h0 : textLen = 0 := hnil rfl
    subst h0
    constructor
    · intro x hx
      simp [wrap_indices, wrapLoop] at hx
    · intro p hp
      simp [lineSpans, wrap_indices, wrapLoop] at hp
      rw [hp]
      simp
  | cons b0 rest =>
    have hb0 : b0 = 0 := hhead b0 (by simp)
    subst hb0
    have hw : 1 ≤ w := by
      cases h : rest ++ [textLen] with
      | nil => simp at h
      | cons x1 rs =>
        have h1 : List.Chain' (· < ·) (0 :: x1 :: rs) := by
          rw [← h]; exact hinc
        have h2 : List.Chain' (fun a b => b - a ≤ w) (0 :: x1 :: rs) := by
          rw [← h]; exact hgap
        have := (List.chain'_cons.mp h1).1
        have := (List.chain'_cons.mp h2).1
        omega
    have hstep : wrap_indices (0 :: rest) textLen w =
        wrapLoop w (rest ++ [textLen]) (some 0) w := by
      simp [wrap_indices, wrapLoop]
    obtain ⟨ha, _, hc⟩ := wrapLoop_spec w (rest ++ [textLen]) 0 w 0
      hinc hgap (Nat.zero_le w) (by omega) (Nat.le_refl 0)
    constructor
    · intro x hx
      rw [hstep] at hx
      obtain ⟨h1, y, hy, hxy⟩ := ha x hx
      rcases h1 with rfl | h1
      · exact List.mem_cons_self 0 rest
      · rcases List.mem_append.mp h1 with h1 | h1
        · exact List.mem_cons_of_mem 0 h1
        · exfalso
          rw [List.mem_singleton.mp h1] at hxy
          rcases List.mem_append.mp hy with hy | hy
          · have : y < textLen :=
              chain_lt_mem_lt_last (l := 0 :: rest) hinc y
                (List.mem_cons_of_mem 0 hy)
            omega
          · rw [List.mem_singleton.mp hy] at hxy
            omega
    · intro p hp
      rw [List.getLast?_concat] at hc
      simp only [Option.getD_some] at hc
      simp only [lineSpans, hstep] at hp
      cases p with
      | mk a b => exact chain'_zip_pairs _ hc a b hp

theorem textFromLines_flatten (part : List Char) :
    (textFromLines part).flatten = part := by
  unfold textFromLines
  by_cases h : part = [] <;> simp [h]

theorem map_textFromLines_flatten (parts : List (List Char)) :
    ((parts.map textFromLines).flatten).flatten = parts.flatten := by
  induction parts with
  | nil => rfl
  | cons p t ih => simp [textFromLines_flatten, ih]

/-- C7: for a single word longer than `max_width` (its only word boundary
is position 0, so there is no internal boundary before the limit), the
wrapper emits exactly one rendered line containing the entire string: the
word is not broken mid-word and no additional line is produced.  The split
at index 0 yields an empty leading part, and `Text::from("")` contributes
zero rendered lines, leaving the unbroken word as the single line. -/
theorem create_text_single_long_word (content : List Char) (w : Nat)
    (h : content.length > w) :
    create_text [0] content w = [content] := by
  have hne : content ≠ [] := by
    intro hc
    rw [hc] at h
    simp at h
  unfold create_text
  rw [if_pos h]
  have hwrap : wrap_indices [0] content.length w = [0] := by
    unfold wrap_indices
    simp [wrapLoop, h]
  rw [hwrap]
  unfold split_string_at_indices
  simp [splitLoop, textFromLines, hne]

theorem splitLoop_flatten :
    ∀ (idx : List Nat) (off : Nat) (ms : List Char),
    (splitLoop idx off ms).flatten = ms := by
  intro idx
  induction idx with
  | nil => intro off ms; simp [splitLoop]
  | cons i rest ih => intro off ms; simp [splitLoop, ih]

/-- C8: concatenating the lines emitted by the text wrapper, in order and
with no separator, reproduces the original input exactly; moreover the
split indices are strictly increasing and all below the input length, so
the `split_at` offsets never underflow and the `assert!` in
`split_string_at_indices` holds. -/
theorem create_text_flatten (bounds : List Nat) (content : List Char) (w : Nat)
    (hinc : List.Chain' (· < ·) (bounds ++ [content.length]))
    (hhead : ∀ b0 ∈ bounds.head?, b0 = 0) :
    (create_text bounds content w).flatten = content ∧
    List.Chain' (· < ·) (wrap_indices bounds content.length w) ∧
    (∀ x ∈ wrap_indices bounds content.length w, x < content.length) := by
  have hjoin : (create_text bounds content w).flatten = content := by
    unfold create_text
    by_cases hlen : content.length > w
    · rw [if_pos hlen]
      rw [map_textFromLines_flatten]
      exact splitLoop_flatten _ 0 content
    · rw [if_neg hlen]
      exact textFromLines_flatten content
  refine ⟨hjoin, ?_⟩
  cases bounds with
  | nil =>
    have hnil : wrap_indices [] content.length w = [] := by
      simp [wrap_indices, wrapLoop]
    rw [hnil]
    exact ⟨List.chain'_nil, by simp⟩
  | cons b0 rest =>
    have hb0 : b0 = 0 := hhead b0 (by simp)
    subst hb0
    have hstep : wrap_indices (0 :: rest) content.length w =
        wrapLoop w (rest ++ [content.length]) (some 0) w := by
      simp [wrap_indices, wrapLoop]
    obtain ⟨ha, hb⟩ := wrapLoop_mem_lt w (rest ++ [content.length]) 0 w hinc
    rw [hstep]
    refine ⟨hb, ?_⟩
    intro x hx
    obtain ⟨_, y, hy, hxy⟩ := ha x hx
    rcases List.mem_append.mp hy with hy | hy
    · have hyl : y < content.length :=
        chain_lt_mem_lt_last (l := 0 :: rest) hinc y (List.mem_cons_of_mem 0 hy)
      omega
    · rw [List.mem_singleton.mp hy] at hxy
      exact hxy

/-! ## Index build (src/search/quick.rs `State::update` and
src/app.rs `App::update_results`)

A corpus is the ordered list of rows, each row the list of its column
texts (`display_data` / the `texts` iterator), modelled as `List Char`
per column (byte positions coincide with list positions for ASCII). -/

/-- `str::match_indices(needle)` mapped to `(index, index + needle.len())`
as in both scan bodies: repeated leftmost non-overlapping scanning.  For an
empty needle Rust yields a match at every position including `hay.len()`;
the advance is by the match length, with the `max _ 1` making the
empty-needle step of one byte explicit (both call sites guard against an
empty needle). -/
def matchIndicesFrom (needle : List Char) : List Char → Nat → List MatchedPosition
  | [], i => if needle = [] then [(i, i)] else []
  | c :: t, i =>
    if needle.isPrefixOf (c :: t) then
      (i, i + needle.length) ::
        matchIndicesFrom needle ((c :: t).drop (max needle.length 1))
          (i + max needle.length 1)
    else
      matchIndicesFrom needle t (i + 1)
termination_by hay _ => hay.length
decreasing_by
  all_goals simp

/-- The per-row column scan shared by `State::update` and
`App::update_results`: for each column text, collect the match positions;
keep the column only when some position matched. -/
def matchedColumns (query : List Char) (cells : List (List Char)) :
    List MatchedColumn :=
  cells.enum.filterMap fun cell =>
    let positions := matchIndicesFrom query cell.2 0
    if positions = [] then none
    else some { index := cell.1, positions := positions }

/-- The full corpus scan shared by `State::update` and the
`results.is_empty()` branch of `App::update_results`: keep a line only
when some column matched. -/
def scanResults (query : List Char) (corpus : List (List (List Char))) :
    List MatchedLine :=
  corpus.enum.filterMap fun row =>
    let columns := matchedColumns query row.2
    if columns = [] then none
    else some { index := row.1, columns := columns }

/-- src/search/mod.rs / src/search/search.rs `QuickSearchMode`. -/
inductive QuickSearchMode where
  | Off
  | Input
  | Iteration
deriving DecidableEq, Repr

/-- src/search/quick.rs `State` (the `elapsed` wall-clock field is outside
the model). -/
structure QuickState where
  mode : QuickSearchMode
  input : List Char
  results : List MatchedLine
deriving DecidableEq, Repr

/-- `State::update` (src/search/quick.rs): empty input clears the results
and returns 0; otherwise the results are recomputed from scratch by the
full scan and its length returned. -/
def State_update (st : QuickState) (corpus : List (List (List Char))) :
    QuickState × Nat :=
  if st.input = [] then ({ st with results := [] }, 0)
  else
    let r := scanResults st.input corpus
    ({ st with results := r }, r.length)

/-! ## Viewport Controller / input loop (src/app.rs) -/

/-- `crossterm::event::KeyCode`, restricted to the codes `App` matches on.
`Char` carries the typed character (`q`, `c`, `y`, `Y`, `/`, `n`, `N` are
dispatched on below). -/
inductive KeyCode where
  | Down
  | Up
  | PageDown
  | PageUp
  | Enter
  | Esc
  | Backspace
  | Home
  | End
  | Left
  | Right
  | Char (c : Char)
deriving DecidableEq, Repr

/-- The mutable fields of `App` (src/app.rs) that the verified behavior
depends on.  `state_selected` is `TableState::selected()` (the relative
selection inside the window); `row_heights` models the
`BTreeMap<usize, usize>` of expanded row heights as its entry list.
`title`, `fps`, `input_event_message`, `should_quit`, the column offset of
the inner `LogTable` and the search `elapsed` time are rendering/IO
bookkeeping with no effect on the modelled fields. -/
structure AppState where
  mode : QuickSearchMode
  input : List Char
  results : List MatchedLine
  vertical_offset : Nat
  state_selected : Option Nat
  height : Nat
  row_heights : List (Nat × Nat)
deriving DecidableEq, Repr

/-- `BTreeMap::get` on the modelled entry list. -/
def rhGet (rh : List (Nat × Nat)) (k : Nat) : Option Nat :=
  (rh.find? fun p => p.1 = k).map Prod.snd

/-- `App::selected` (src/app.rs):
`vertical_offset + state.selected().unwrap_or(0)`. -/
def AppState.selected (s : AppState) : Nat :=
  s.vertical_offset + s.state_selected.getD 0

/-- `App::visible_range` (src/app.rs):
`(vertical_offset, vertical_offset + height)`. -/
def AppState.visible_range (s : AppState) : Nat × Nat :=
  (s.vertical_offset, s.vertical_offset + s.height)

/-- `App::select` (src/app.rs).  Note the inclusive comparison
`line <= self.visible_range().1` in the source (Rust tuple field `.1` is
the second component, `.2` here). -/
def select (s : AppState) (line : Option Nat) : AppState :=
  match line with
  | none => s
  | some line =>
    if line ≥ s.visible_range.1 ∧ line ≤ s.visible_range.2 then
      { s with state_selected := some (line - s.vertical_offset) }
    else
      { s with vertical_offset := line, state_selected := some 0 }

/-- `closest` (src/app.rs): strict `ld < ud`, so the upper candidate wins
ties; an absent candidate stands in as `usize::MAX`. -/
def closest (target : Nat) (lower upper : Option Nat) : Option Nat :=
  let ld := distance target (lower.getD USIZE_MAX)
  let ud := distance target (upper.getD USIZE_MAX)
  if ld < ud then lower else upper

/-- `App::jump_to_nearest_result` (src/app.rs): the two sorted-set `range`
scans around the sentinel, then `select(closest(..))`. -/
def jump_to_nearest_result (s : AppState) : AppState :=
  let sentinel := MatchedLine.sentinel s.selected
  let lower := ((s.results.filter fun e =>
    lineCompare e sentinel ≠ .gt).getLast?).map MatchedLine.index
  let upper := ((s.results.filter fun e =>
    lineCompare e sentinel ≠ .lt).head?).map MatchedLine.index
  select s (closest s.selected lower upper)

/-- `App::jump_to_next_result` (src/app.rs):
`range((Excluded(&sentinel), Unbounded))` (which still contains a real
matched line at the selected index, since such a line compares greater
than the sentinel), then `advance_by(1)` and `next()`: when the range is
empty nothing happens; otherwise the selection moves to the second element
of the range (or nowhere when there is none). -/
def jump_to_next_result (s : AppState) : AppState :=
  let range := s.results.filter fun e =>
    lineCompare e (MatchedLine.sentinel s.selected) = .gt
  match range with
  | [] => s
  | _ :: rest => select s ((rest.head?).map MatchedLine.index)

/-- `App::jump_to_previous_result` (src/app.rs):
`range((Unbounded, Excluded(&sentinel))).next_back()`, then `select`. -/
def jump_to_previous_result (s : AppState) : AppState :=
  select s (((s.results.filter fun e =>
    lineCompare e (MatchedLine.sentinel s.selected) = .lt).getLast?).map
      MatchedLine.index)

/-- `App::update_results` (src/app.rs).  The `assert!(!query.is_empty())`
holds at the only call site (Enter with non-empty input).  With an empty
previous result set the full scan runs (the same scan body as
`State::update`); otherwise the stubbed subset-filter branch
`results.iter().filter_map(|_| None).collect()` collects an empty set.
The `elapsed` wall-clock measurement is outside the model. -/
def update_results (corpus : List (List (List Char))) (s : AppState) :
    AppState :=
  if s.results.isEmpty then
    { s with results := scanResults s.input corpus }
  else
    { s with results := s.results.filterMap fun _ => none }

/-- The `KeyCode::Down` arm of `App::regular_input`: move the relative
selection down while it fits under `height`, otherwise scroll by the
rendered height of the row leaving the top (1 without an override). -/
def downStep (s : AppState) : AppState :=
  match s.state_selected with
  | none => s
  | some sel =>
    if sel + 1 < s.height then
      { s with state_selected := some (sel + 1) }
    else
      { s with vertical_offset :=
          s.vertical_offset + (rhGet s.row_heights s.vertical_offset).getD 1 }

/-- The `KeyCode::Up` arm of `App::regular_input`: move the relative
selection up, or scroll up by the height of the row re-entering at the top
(`saturating_sub` is `Nat` subtraction). -/
def upStep (s : AppState) : AppState :=
  match s.state_selected with
  | none => s
  | some sel =>
    if sel = 0 then
      { s with vertical_offset :=
          s.vertical_offset - (rhGet s.row_heights s.vertical_offset).getD 1 }
    else
      { s with state_selected := some (sel - 1) }

/-- `App::regular_input` (src/app.rs), on the modelled fields.  `q` and
ctrl-`c` set `should_quit`, `y`/`Y` drive the clipboard, Left/Right and
Home/End move the column offset, and Enter toggles message wrapping — all
outside the modelled fields, so those arms leave the state unchanged
(wrap toggling reaches the model only through the heights recomputed by
the next `draw`).  PageDown/PageUp re-dispatch the single-row step
`self.height` times (`for _ in 0..self.height`; the bound is read once and
Down/Up never change `height`). -/
def regular_input (ev : KeyCode) (s : AppState) : AppState :=
  match ev with
  | .Down => downStep s
  | .Up => upStep s
  | .PageDown => downStep^[s.height] s
  | .PageUp => upStep^[s.height] s
  | .Char c =>
      if c = '/' then { s with mode := .Input, results := [] } else s
  | _ => s

/-- The `QuickSearchMode::Input` arm of `App::input` (src/app.rs): Esc
cancels (clearing the query), Enter commits — on an empty query search is
simply turned off, otherwise the mode becomes Iteration, the results are
rebuilt and the selection jumps to the nearest match, in that order;
Backspace clears the query and typed characters are appended to it. -/
def search_input (corpus : List (List (List Char))) (ev : KeyCode)
    (s : AppState) : AppState :=
  match ev with
  | .Esc => { s with mode := .Off, input := [] }
  | .Enter =>
    if s.input = [] then { s with mode := .Off }
    else
      jump_to_nearest_result
        (update_results corpus { s with mode := .Iteration })
  | .Backspace => { s with input := [] }
  | .Char c => { s with input := s.input ++ [c] }
  | _ => s

/-- The `QuickSearchMode::Iteration` arm of `App::input` (src/app.rs): Esc
leaves iteration, `n`/`N` jump to the next/previous match, everything else
falls through to `regular_input`. -/
def iteration_input (ev : KeyCode) (s : AppState) : AppState :=
  match ev with
  | .Esc => { s with mode := .Off }
  | .Char c =>
    if c = 'n' then jump_to_next_result s
    else if c = 'N' then jump_to_previous_result s
    else regular_input (.Char c) s
  | _ => regular_input ev s

/-- `App::input` (src/app.rs): dispatch on the quick-search mode. -/
def input (corpus : List (List (List Char))) (ev : KeyCode) (s : AppState) :
    AppState :=
  match s.mode with
  | .Off => regular_input ev s
  | .Input => search_input corpus ev s
  | .Iteration => iteration_input ev s

/-- `App::init` (src/app.rs): search off, empty query and results,
selection on row 0 (regardless of the corpus, also when it is empty);
`height` and `row_heights` are populated by `draw`. -/
def initApp : AppState :=
  { mode := .Off, input := [], results := [], vertical_offset := 0,
    state_selected := some 0, height := 0, row_heights := [] }

/-- One observable step of the event loop: a key event processed by
`App::input`, or a frame drawn by `App::draw`, which recomputes `height`
and `row_heights` (arbitrary here: they depend on the terminal size and
the rendered row heights) and touches no other modelled field. -/
inductive Step (corpus : List (List (List Char))) : AppState → AppState → Prop
  | key (ev : KeyCode) (s : AppState) : Step corpus s (input corpus ev s)
  | draw (s : AppState) (h : Nat) (rh : List (Nat × Nat)) :
      Step corpus s { s with height := h, row_heights := rh }

/-- The app states reachable from `App::init` by the event loop. -/
def Reachable (corpus : List (List (List Char))) (s : AppState) : Prop :=
  Relation.ReflTransGen (Step corpus) initApp s

/-! ## C2: nearest lookup and the nearest-jump -/

theorem distance_eq (a b : Nat) : distance a b = (b - a) + (a - b) := by
  rcases Nat.lt_trichotomy a b with h | h | h
  · simp [distance, Nat.compare_eq_lt.mpr h]
    omega
  · simp [distance, Nat.compare_eq_eq.mpr h]
    omega
  · simp [distance, Nat.compare_eq_gt.mpr h]
    omega

theorem select_none (s : AppState) : select s none = s := rfl

theorem select_some_selected (st : AppState) (x : Nat) :
    (select st (some x)).selected = x := by
  by_cases h : x ≥ st.visible_range.1 ∧ x ≤ st.visible_range.2
  · have h1 : st.vertical_offset ≤ x := h.1
    simp [select, h, AppState.selected]
    omega
  · simp [select, h, AppState.selected]

/-- A canonical one-match line for concrete instances. -/
def mkLine (i : Nat) : MatchedLine :=
  { index := i, columns := [{ index := 0, positions := [(0, 1)] }] }

/-- The app state used by the C2 counterexample: iterating a committed
query whose matches are rows 1 and 5, with the cursor on row 3. -/
def appC2 : AppState :=
  { mode := .Iteration, input := ['x'], results := [mkLine 1, mkLine 5],
    vertical_offset := 3, state_selected := some 0, height := 10,
    row_heights := [] }

/-- C2 counterexample.  Two divergences from the claim at concrete inputs:
(1) at exact equidistance the live jump (`closest`, strict `<`) selects the
higher index — with matches {1, 5} and the cursor on row 3 it moves to 5,
not to the claimed lower index 1; (2) `nearest` probed at
`usize::MAX - 1` on the non-empty index {0} returns `none`, not the
minimum-distance match, because the absent upper neighbour stands in as
`usize::MAX` at distance 1. -/
theorem nearest_claim_counterexample :
    (distance 3 1 = distance 3 5 ∧
      (jump_to_nearest_result appC2).selected = 5 ∧
      ¬ (jump_to_nearest_result appC2).selected = 1) ∧
    ([mkLine 0] ≠ ([] : List MatchedLine) ∧
      nearest_match [mkLine 0] (USIZE_MAX - 1) = none) := by
  constructor
  · exact ⟨by decide, by decide, by decide⟩
  · exact ⟨by decide, by decide⟩

/-- C2 (amended): on an empty index `nearest` returns `none` and the
nearest-jump is a no-op.  On a non-empty index, provided the probe and all
line indices stay below half of `usize::MAX` (automatic for any corpus
that fits in memory; for probes near `usize::MAX` the sentinel arithmetic
returns `none` instead), both return the match with minimum absolute
`line_index` distance — but at exact equidistance
`implementation::nearest_match` (`<=`) returns the lower index while the
app's `jump_to_nearest_result` (`closest`, strict `<`) selects the higher
index. -/
theorem nearest_match_spec (s : List MatchedLine) (i : Nat)
    (hs : LinesSorted s) (hcols : ColumnsNonempty s)
    (hbound : ∀ e ∈ s, 2 * e.index < USIZE_MAX)
    (hi : 2 * i < USIZE_MAX) :
    (s = [] → nearest_match s i = none) ∧
    (s ≠ [] → ∃ m ∈ s, nearest_match s i = some m ∧
      (∀ e ∈ s, distance i m.index ≤ distance i e.index) ∧
      (∀ e ∈ s, distance i e.index = distance i m.index → m.index ≤ e.index)) ∧
    (∀ st : AppState, st.results = s → st.selected = i →
      (s = [] → jump_to_nearest_result st = st) ∧
      (s ≠ [] → ∃ m ∈ s, (jump_to_nearest_result st).selected = m.index ∧
        (∀ e ∈ s, distance i m.index ≤ distance i e.index) ∧
        (∀ e ∈ s, distance i e.index = distance i m.index →
          e.index ≤ m.index))) := by
  have hMAX : 0 < USIZE_MAX := by
    unfold USIZE_MAX
    omega
  have hdef : nearest_match s i =
      if distance i
          ((((s.filter fun e =>
            lineCompare e (MatchedLine.sentinel i) ≠ .gt).getLast?).map
              MatchedLine.index).getD USIZE_MAX)
        ≤ distance i
          ((((s.filter fun e =>
            lineCompare e (MatchedLine.sentinel i) ≠ .lt).head?).map
              MatchedLine.index).getD USIZE_MAX)
      then (s.filter fun e =>
        lineCompare e (MatchedLine.sentinel i) ≠ .gt).getLast?
      else (s.filter fun e =>
        lineCompare e (MatchedLine.sentinel i) ≠ .lt).head? := rfl
  rcases hL : (s.filter fun e =>
      lineCompare e (MatchedLine.sentinel i) ≠ .gt).getLast? with _ | l <;>
    rcases hU : (s.filter fun e =>
      lineCompare e (MatchedLine.sentinel i) ≠ .lt).head? with _ | u
  · -- no element below, no element at-or-above: the set is empty
    have hempty : s = [] := by
      rcases s with _ | ⟨e, t⟩
      · rfl
      · exfalso
        have h1 := filter_getLast?_none hL e (List.mem_cons_self e t)
        have h2 := filter_head?_none hU e (List.mem_cons_self e t)
        rw [decide_eq_true_eq] at h1 h2
        rw [lineCompare_sentinel_ne_gt
          (hcols e (List.mem_cons_self e t))] at h1
        rw [lineCompare_sentinel_ne_lt] at h2
        omega
    subst hempty
    refine ⟨fun _ => by rw [hdef, hL, hU]; simp, fun h => absurd rfl h, ?_⟩
    intro st hres hsel
    refine ⟨fun _ => ?_, fun h => absurd rfl h⟩
    simp only [jump_to_nearest_result, closest]
    rw [hsel, hres, hL, hU]
    simp [select_none]
  · -- elements only at-or-above the probe: the upper candidate is chosen
    have hall : ∀ e ∈ s, i ≤ e.index := by
      intro e he
      have h1 := filter_getLast?_none hL e he
      rw [decide_eq_true_eq, lineCompare_sentinel_ne_gt (hcols e he)] at h1
      omega
    obtain ⟨hu_mem, hu_p, hu_min⟩ := filter_head?_some hs hU
    have hu_i : i ≤ u.index := by
      rw [decide_eq_true_eq, lineCompare_sentinel_ne_lt] at hu_p
      exact hu_p
    have hu_bound : 2 * u.index < USIZE_MAX := hbound u hu_mem
    have hcond : ¬ distance i USIZE_MAX ≤ distance i u.index := by
      rw [distance_eq, distance_eq]
      omega
    have hmin : ∀ e ∈ s, distance i u.index ≤ distance i e.index := by
      intro e he
      have h1 := hall e he
      have h2 : u.index ≤ e.index := by
        apply hu_min e he
        rw [decide_eq_true_eq, lineCompare_sentinel_ne_lt]
        exact h1
      rw [distance_eq, distance_eq]
      omega
    have hne : s ≠ [] := by
      intro h
      rw [h] at hu_mem
      cases hu_mem
    refine ⟨fun h => absurd h hne, fun _ => ?_, ?_⟩
    · refine ⟨u, hu_mem, ?_, hmin, ?_⟩
      · rw [hdef, hL, hU]
        simp only [Option.map_none', Option.getD_none, Option.map_some',
          Option.getD_some]
        rw [if_neg hcond]
      · intro e he hde
        have h1 := hall e he
        have h2 : u.index ≤ e.index := by
          apply hu_min e he
          rw [decide_eq_true_eq, lineCompare_sentinel_ne_lt]
          exact h1
        rw [distance_eq, distance_eq] at hde
        omega
    · intro st hres hsel
      refine ⟨fun h => absurd h hne, fun _ => ?_⟩
      have hjump : jump_to_nearest_result st = select st (some u.index) := by
        simp only [jump_to_nearest_result, closest]
        rw [hsel, hres, hL, hU]
        simp only [Option.map_none', Option.map_some', Option.getD_none,
          Option.getD_some]
        rw [if_neg (by rw [distance_eq, distance_eq]; omega)]
      refine ⟨u, hu_mem, ?_, hmin, ?_⟩
      · rw [hjump, select_some_selected]
      · intro e he hde
        have h1 := hall e he
        have h2 : u.index ≤ e.index := by
          apply hu_min e he
          rw [decide_eq_true_eq, lineCompare_sentinel_ne_lt]
          exact h1
        rw [distance_eq, distance_eq] at hde
        omega
  · -- elements only below the probe: the lower candidate is chosen
    have hall : ∀ e ∈ s, e.index < i := by
      intro e he
      have h1 := filter_head?_none hU e he
      rw [decide_eq_true_eq, lineCompare_sentinel_ne_lt] at h1
      omega
    obtain ⟨hl_mem, hl_p, hl_max⟩ := filter_getLast?_some hs hL
    have hl_i : l.index < i := hall l hl_mem
    have hcond : distance i l.index ≤ distance i USIZE_MAX := by
      rw [distance_eq, distance_eq]
      omega
    have hmin : ∀ e ∈ s, distance i l.index ≤ distance i e.index := by
      intro e he
      have h1 := hall e he
      have h2 : e.index ≤ l.index := by
        apply hl_max e he
        rw [decide_eq_true_eq, lineCompare_sentinel_ne_gt (hcols e he)]
        exact h1
      rw [distance_eq, distance_eq]
      omega
    have htie : ∀ e ∈ s, distance i e.index = distance i l.index →
        e.index = l.index := by
      intro e he hde
      have h1 := hall e he
      have h2 : e.index ≤ l.index := by
        apply hl_max e he
        rw [decide_eq_true_eq, lineCompare_sentinel_ne_gt (hcols e he)]
        exact h1
      rw [distance_eq, distance_eq] at hde
      omega
    have hne : s ≠ [] := by
      intro h
      rw [h] at hl_mem
      cases hl_mem
    refine ⟨fun h => absurd h hne, fun _ => ?_, ?_⟩
    · refine ⟨l, hl_mem, ?_, hmin, fun e he hde => (htie e he hde).ge⟩
      rw [hdef, hL, hU]
      simp only [Option.map_none', Option.map_some', Option.getD_none,
        Option.getD_some]
      rw [if_pos hcond]
    · intro st hres hsel
      refine ⟨fun h => absurd h hne, fun _ => ?_⟩
      have hjump : jump_to_nearest_result st = select st (some l.index) := by
        simp only [jump_to_nearest_result, closest]
        rw [hsel, hres, hL, hU]
        simp only [Option.map_none', Option.map_some', Option.getD_none,
          Option.getD_some]
        rw [if_pos (by rw [distance_eq, distance_eq]; omega)]
      refine ⟨l, hl_mem, ?_, hmin, fun e he hde => (htie e he hde).le⟩
      rw [hjump, select_some_selected]
  · -- candidates on both sides
    obtain ⟨hl_mem, hl_p, hl_max⟩ := filter_getLast?_some hs hL
    obtain ⟨hu_mem, hu_p, hu_min⟩ := filter_head?_some hs hU
    have hl_i : l.index < i := by
      rw [decide_eq_true_eq, lineCompare_sentinel_ne_gt (hcols l hl_mem)] at hl_p
      exact hl_p
    have hu_i : i ≤ u.index := by
      rw [decide_eq_true_eq, lineCompare_sentinel_ne_lt] at hu_p
      exact hu_p
    have hsplit : ∀ e ∈ s, (e.index < i → e.index ≤ l.index) ∧
        (i ≤ e.index → u.index ≤ e.index) := by
      intro e he
      constructor
      · intro h1
        apply hl_max e he
        rw [decide_eq_true_eq, lineCompare_sentinel_ne_gt (hcols e he)]
        exact h1
      · intro h1
        apply hu_min e he
        rw [decide_eq_true_eq, lineCompare_sentinel_ne_lt]
        exact h1
    have hne : s ≠ [] := by
      intro h
      rw [h] at hl_mem
      cases hl_mem
    refine ⟨fun h => absurd h hne, fun _ => ?_, ?_⟩
    · by_cases hcond : distance i l.index ≤ distance i u.index
      · refine ⟨l, hl_mem, ?_, ?_, ?_⟩
        · rw [hdef, hL, hU]
          simp only [Option.map_some', Option.getD_some]
          rw [if_pos hcond]
        · intro e he
          obtain ⟨ha, hb⟩ := hsplit e he
          rw [distance_eq, distance_eq] at hcond ⊢
          rcases Nat.lt_or_ge e.index i with h1 | h1
          · have := ha h1
            omega
          · have := hb h1
            omega
        · intro e he hde
          obtain ⟨ha, hb⟩ := hsplit e he
          rw [distance_eq, distance_eq] at hde hcond
          rcases Nat.lt_or_ge e.index i with h1 | h1
          · have := ha h1
            omega
          · omega
      · refine ⟨u, hu_mem, ?_, ?_, ?_⟩
        · rw [hdef, hL, hU]
          simp only [Option.map_some', Option.getD_some]
          rw [if_neg hcond]
        · intro e he
          obtain ⟨ha, hb⟩ := hsplit e he
          rw [distance_eq, distance_eq] at hcond ⊢
          rcases Nat.lt_or_ge e.index i with h1 | h1
          · have := ha h1
            omega
          · have := hb h1
            omega
        · intro e he hde
          obtain ⟨ha, hb⟩ := hsplit e he
          rw [distance_eq, distance_eq] at hde hcond
          rcases Nat.lt_or_ge e.index i with h1 | h1
          · have := ha h1
            omega
          · have := hb h1
            omega
    · intro st hres hsel
      refine ⟨fun h => absurd h hne, fun _ => ?_⟩
      by_cases hcond : distance i l.index < distance i u.index
      · have hjump : jump_to_nearest_result st = select st (some l.index) := by
          simp only [jump_to_nearest_result, closest]
          rw [hsel, hres, hL, hU]
          simp only [Option.map_some', Option.getD_some]
          rw [if_pos hcond]
        refine ⟨l, hl_mem, ?_, ?_, ?_⟩
        · rw [hjump, select_some_selected]
        · intro e he
          obtain ⟨ha, hb⟩ := hsplit e he
          rw [distance_eq, distance_eq] at hcond ⊢
          rcases Nat.lt_or_ge e.index i with h1 | h1
          · have := ha h1
            omega
          · have := hb h1
            omega
        · intro e he hde
          obtain ⟨ha, hb⟩ := hsplit e he
          rw [distance_eq, distance_eq] at hde hcond
          rcases Nat.lt_or_ge e.index i with h1 | h1
          · have := ha h1
            omega
          · have := hb h1
            omega
      · have hjump : jump_to_nearest_result st = select st (some u.index) := by
          simp only [jump_to_nearest_result, closest]
          rw [hsel, hres, hL, hU]
          simp only [Option.map_some', Option.getD_some]
          rw [if_neg hcond]
        refine ⟨u, hu_mem, ?_, ?_, ?_⟩
        · rw [hjump, select_some_selected]
        · intro e he
          obtain ⟨ha, hb⟩ := hsplit e he
          rw [distance_eq, distance_eq] at hcond ⊢
          rcases Nat.lt_or_ge e.index i with h1 | h1
          · have := ha h1
            omega
          · have := hb h1
            omega
        · intro e he hde
          obtain ⟨ha, hb⟩ := hsplit e he
          rw [distance_eq, distance_eq] at hde hcond
          rcases Nat.lt_or_ge e.index i with h1 | h1
          · have := ha h1
            omega
          · have := hb h1
            omega

/-! ## C4: the select operation -/

/-- Modelled from the spec's words (claim C4, for refutation): a target in
the half-open visible window `[vertical_offset, vertical_offset + height)`
only changes the relative selection; any other target re-anchors
`vertical_offset` to the target and resets the relative selection to 0. -/
def selectClaim (s : AppState) (t : Nat) : Prop :=
  (s.vertical_offset ≤ t ∧ t < s.vertical_offset + s.height →
    select s (some t) = { s with state_selected := some (t - s.vertical_offset) }) ∧
  (¬(s.vertical_offset ≤ t ∧ t < s.vertical_offset + s.height) →
    select s (some t) = { s with vertical_offset := t, state_selected := some 0 })

instance (s : AppState) (t : Nat) : Decidable (selectClaim s t) := by
  unfold selectClaim
  infer_instance

/-- C4 counterexample: with `vertical_offset = 0` and `height = 2` the
target 2 is one past the half-open window, so the claim requires
re-anchoring (`vertical_offset := 2`, relative selection 0); but the source
tests `line <= visible_range().1` inclusively, keeps `vertical_offset = 0`
and sets the relative selection to 2. -/
theorem selectClaim_counterexample :
    ¬ selectClaim { initApp with height := 2 } 2 := by decide

/-- C4 (amended): the window test is inclusive at its bottom edge.  For a
target `t` in the closed interval
`[vertical_offset, vertical_offset + height]` only the relative selection
changes (the absolute selection becomes `t`, `vertical_offset` is
untouched); for `t` strictly outside it, `vertical_offset` is re-anchored
to `t` and the relative selection reset to 0 (absolute selection again
`t`). -/
theorem select_spec (s : AppState) (t : Nat) :
    (s.vertical_offset ≤ t → t ≤ s.vertical_offset + s.height →
      select s (some t) =
        { s with state_selected := some (t - s.vertical_offset) } ∧
      (select s (some t)).selected = t ∧
      (select s (some t)).vertical_offset = s.vertical_offset) ∧
    (t < s.vertical_offset ∨ s.vertical_offset + s.height < t →
      select s (some t) =
        { s with vertical_offset := t, state_selected := some 0 } ∧
      (select s (some t)).selected = t) := by
  constructor
  · intro h1 h2
    have hc : t ≥ s.visible_range.1 ∧ t ≤ s.visible_range.2 := ⟨h1, h2⟩
    refine ⟨by simp [select, hc], select_some_selected s t, by simp [select, hc]⟩
  · intro h1
    have hc : ¬(t ≥ s.visible_range.1 ∧ t ≤ s.visible_range.2) := by
      intro hcon
      have ha : s.vertical_offset ≤ t := hcon.1
      have hb : t ≤ s.vertical_offset + s.height := hcon.2
      omega
    refine ⟨by simp [select, hc], select_some_selected s t⟩

/-! ## C5: navigation saturation -/

theorem upStep_frame (s : AppState) :
    (upStep s).mode = s.mode ∧ (upStep s).results = s.results ∧
    (upStep s).input = s.input ∧ (upStep s).height = s.height ∧
    (upStep s).row_heights = s.row_heights := by
  unfold upStep
  rcases s.state_selected with _ | sel
  · exact ⟨rfl, rfl, rfl, rfl, rfl⟩
  · by_cases h : sel = 0 <;> simp [h]

theorem downStep_frame (s : AppState) :
    (downStep s).mode = s.mode ∧ (downStep s).results = s.results ∧
    (downStep s).input = s.input ∧ (downStep s).height = s.height ∧
    (downStep s).row_heights = s.row_heights := by
  unfold downStep
  rcases s.state_selected with _ | sel
  · exact ⟨rfl, rfl, rfl, rfl, rfl⟩
  · by_cases h : sel + 1 < s.height <;> simp [h]

theorem upStep_le (s : AppState) : (upStep s).selected ≤ s.selected := by
  unfold upStep AppState.selected
  cases hs : s.state_selected with
  | none => simp [hs]
  | some sel => by_cases h : sel = 0 <;> simp [h, hs]

theorem upStep_zero (s : AppState) (h : s.selected = 0) :
    (upStep s).selected = 0 := by
  unfold AppState.selected at h ⊢
  unfold upStep
  rcases hs : s.state_selected with _ | sel
  · rw [hs] at h
    simpa [hs] using h
  · rw [hs] at h
    simp at h
    have h0 : sel = 0 := by omega
    simp [h0]
    omega

theorem downStep_ge (s : AppState) : s.selected ≤ (downStep s).selected := by
  unfold downStep AppState.selected
  cases hs : s.state_selected with
  | none => simp [hs]
  | some sel => by_cases h : sel + 1 < s.height <;> simp [h, hs]

theorem upStep_iterate_le (s : AppState) (n : Nat) :
    (upStep^[n] s).selected ≤ s.selected := by
  induction n with
  | zero => simp
  | succ k ih =>
    rw [Function.iterate_succ_apply']
    exact le_trans (upStep_le _) ih

theorem upStep_iterate_zero (s : AppState) (n : Nat) (h : s.selected = 0) :
    (upStep^[n] s).selected = 0 := by
  induction n with
  | zero => simpa
  | succ k ih =>
    rw [Function.iterate_succ_apply']
    exact upStep_zero _ ih

theorem downStep_iterate_ge (s : AppState) (n : Nat) :
    s.selected ≤ (downStep^[n] s).selected := by
  induction n with
  | zero => simp
  | succ k ih =>
    rw [Function.iterate_succ_apply']
    exact le_trans ih (downStep_ge _)

/-- The corpus of the C5 counterexample: a single one-column row. -/
def corpC5 : List (List (List Char)) := [[['a']]]

/-- C5 counterexample.  With a one-row corpus (N = 1) the initial absolute
selection is 0 = N - 1, the last row; one select_next (Down, window height
2) moves the absolute selection to row 1, past the last row, instead of
saturating at N - 1 — `regular_input` never consults the corpus length.
And `App::init` selects row 0 unconditionally, so even an empty corpus has
a selection (the claimed "no selection" state does not exist). -/
theorem saturation_claim_counterexample :
    (corpC5.length = 1 ∧
      ({ initApp with height := 2 } : AppState).selected = 0 ∧
      (input corpC5 .Down { initApp with height := 2 }).selected = 1) ∧
    initApp.state_selected = some 0 := by decide

/-- C5 (amended): select_previous and page_up never increase the absolute
selection and saturate at row 0 (from absolute selection 0 they keep it at
0, `saturating_sub` never underflows); select_next and page_down never
decrease it (no wrap-around to row 0, no error).  But downward navigation
is not clamped to the corpus: the absolute selection can exceed N - 1
(see the counterexample), and an empty corpus still carries selection row
0 rather than no selection. -/
theorem navigation_saturation (s : AppState) :
    (regular_input .Up s).selected ≤ s.selected ∧
    (s.selected = 0 → (regular_input .Up s).selected = 0) ∧
    s.selected ≤ (regular_input .Down s).selected ∧
    (regular_input .PageUp s).selected ≤ s.selected ∧
    (s.selected = 0 → (regular_input .PageUp s).selected = 0) ∧
    s.selected ≤ (regular_input .PageDown s).selected := by
  refine ⟨upStep_le s, upStep_zero s, downStep_ge s,
    upStep_iterate_le s s.height, fun h => upStep_iterate_zero s s.height h,
    downStep_iterate_ge s s.height⟩

/-! ## Search-state invariant of the event loop (for C1 and C9) -/

theorem select_frame (s : AppState) (l : Option Nat) :
    (select s l).mode = s.mode ∧ (select s l).results = s.results ∧
    (select s l).input = s.input := by
  cases l with
  | none => exact ⟨rfl, rfl, rfl⟩
  | some t =>
    by_cases h : t ≥ s.visible_range.1 ∧ t ≤ s.visible_range.2 <;>
      simp [select, h]

theorem jump_to_nearest_frame (s : AppState) :
    (jump_to_nearest_result s).mode = s.mode ∧
    (jump_to_nearest_result s).results = s.results ∧
    (jump_to_nearest_result s).input = s.input := by
  simp only [jump_to_nearest_result]
  exact select_frame s _

theorem jump_to_next_frame (s : AppState) :
    (jump_to_next_result s).mode = s.mode ∧
    (jump_to_next_result s).results = s.results ∧
    (jump_to_next_result s).input = s.input := by
  simp only [jump_to_next_result]
  cases (s.results.filter fun e =>
      lineCompare e (MatchedLine.sentinel s.selected) = .gt) with
  | nil => exact ⟨rfl, rfl, rfl⟩
  | cons a rest => exact select_frame s _

theorem jump_to_previous_frame (s : AppState) :
    (jump_to_previous_result s).mode = s.mode ∧
    (jump_to_previous_result s).results = s.results ∧
    (jump_to_previous_result s).input = s.input := by
  simp only [jump_to_previous_result]
  exact select_frame s _

theorem update_results_frame (corp : List (List (List Char))) (s : AppState) :
    (update_results corp s).mode = s.mode ∧
    (update_results corp s).input = s.input := by
  unfold update_results
  split <;> exact ⟨rfl, rfl⟩

theorem downStep_iterate_frame (s : AppState) (n : Nat) :
    (downStep^[n] s).mode = s.mode ∧ (downStep^[n] s).results = s.results ∧
    (downStep^[n] s).input = s.input := by
  induction n with
  | zero => exact ⟨rfl, rfl, rfl⟩
  | succ k ih =>
    rw [Function.iterate_succ_apply']
    obtain ⟨f1, f2, f3, _, _⟩ := downStep_frame (downStep^[k] s)
    exact ⟨f1.trans ih.1, f2.trans ih.2.1, f3.trans ih.2.2⟩

theorem upStep_iterate_frame (s : AppState) (n : Nat) :
    (upStep^[n] s).mode = s.mode ∧ (upStep^[n] s).results = s.results ∧
    (upStep^[n] s).input = s.input := by
  induction n with
  | zero => exact ⟨rfl, rfl, rfl⟩
  | succ k ih =>
    rw [Function.iterate_succ_apply']
    obtain ⟨f1, f2, f3, _, _⟩ := upStep_frame (upStep^[k] s)
    exact ⟨f1.trans ih.1, f2.trans ih.2.1, f3.trans ih.2.2⟩

/-- `regular_input` either leaves the search state (mode, results, query)
unchanged, or — on `/` — opens search input with a cleared result set. -/
theorem regular_input_cases (ev : KeyCode) (s : AppState) :
    ((regular_input ev s).mode = s.mode ∧
      (regular_input ev s).results = s.results ∧
      (regular_input ev s).input = s.input) ∨
    ((regular_input ev s).mode = .Input ∧
      (regular_input ev s).results = [] ∧
      (regular_input ev s).input = s.input) := by
  cases ev with
  | Down =>
    obtain ⟨f1, f2, f3, _, _⟩ := downStep_frame s
    exact Or.inl ⟨f1, f2, f3⟩
  | Up =>
    obtain ⟨f1, f2, f3, _, _⟩ := upStep_frame s
    exact Or.inl ⟨f1, f2, f3⟩
  | PageDown => exact Or.inl (downStep_iterate_frame s s.height)
  | PageUp => exact Or.inl (upStep_iterate_frame s s.height)
  | Char c =>
    by_cases h : c = '/'
    · right
      simp [regular_input, h]
    · left
      simp [regular_input, h]
  | Enter => exact Or.inl ⟨rfl, rfl, rfl⟩
  | Esc => exact Or.inl ⟨rfl, rfl, rfl⟩
  | Backspace => exact Or.inl ⟨rfl, rfl, rfl⟩
  | Home => exact Or.inl ⟨rfl, rfl, rfl⟩
  | End => exact Or.inl ⟨rfl, rfl, rfl⟩
  | Left => exact Or.inl ⟨rfl, rfl, rfl⟩
  | Right => exact Or.inl ⟨rfl, rfl, rfl⟩

/-- One key event preserves the invariant "in Input mode the result set is
empty". -/
theorem input_preserves_invariant (corp : List (List (List Char)))
    (ev : KeyCode) (s : AppState)
    (ih : s.mode = .Input → s.results = []) :
    (input corp ev s).mode = .Input → (input corp ev s).results = [] := by
  intro hmode
  cases hm : s.mode with
  | Off =>
    have hred : input corp ev s = regular_input ev s := by
      simp [input, search_input, iteration_input, hm]
    rw [hred] at hmode ⊢
    rcases regular_input_cases ev s with ⟨h1, h2, _⟩ | ⟨_, h2, _⟩
    · rw [h1, hm] at hmode
      cases hmode
    · exact h2
  | Input =>
    have hres := ih hm
    cases ev with
    | Esc => simp [input, search_input, iteration_input, hm] at hmode
    | Enter =>
      by_cases hq : s.input = []
      · simp [input, search_input, hm, hq] at hmode
      · have hmode2 : (input corp .Enter s).mode = .Iteration := by
          simp only [input, search_input, iteration_input, hm]
          rw [if_neg hq]
          rw [(jump_to_nearest_frame _).1,
            (update_results_frame corp _).1]
        rw [hmode2] at hmode
        cases hmode
    | Backspace =>
      simp [input, search_input, iteration_input, hm]
      exact hres
    | Char c =>
      simp [input, search_input, iteration_input, hm]
      exact hres
    | Down => simpa [input, search_input, iteration_input, hm] using hres
    | Up => simpa [input, search_input, iteration_input, hm] using hres
    | PageDown => simpa [input, search_input, iteration_input, hm] using hres
    | PageUp => simpa [input, search_input, iteration_input, hm] using hres
    | Home => simpa [input, search_input, iteration_input, hm] using hres
    | End => simpa [input, search_input, iteration_input, hm] using hres
    | Left => simpa [input, search_input, iteration_input, hm] using hres
    | Right => simpa [input, search_input, iteration_input, hm] using hres
  | Iteration =>
    cases ev with
    | Esc => simp [input, search_input, iteration_input, hm] at hmode
    | Char c =>
      by_cases hn : c = 'n'
      · have hmode2 : (input corp (.Char c) s).mode = .Iteration := by
          simp only [input, iteration_input, hm, hn, ite_true]
          rw [(jump_to_next_frame _).1, hm]
        rw [hmode2] at hmode
        cases hmode
      · by_cases hN : c = 'N'
        · have hmode2 : (input corp (.Char c) s).mode = .Iteration := by
            simp only [input, iteration_input, hm, hN, ite_true]
            rw [if_neg (by decide), (jump_to_previous_frame _).1, hm]
          rw [hmode2] at hmode
          cases hmode
        · have hred : input corp (.Char c) s = regular_input (.Char c) s := by
            simp [input, iteration_input, hm, hn, hN]
          rw [hred] at hmode ⊢
          rcases regular_input_cases (.Char c) s with ⟨h1, h2, _⟩ | ⟨_, h2, _⟩
          · rw [h1, hm] at hmode
            cases hmode
          · exact h2
    | Down =>
      have hred : input corp .Down s = regular_input .Down s := by
        simp [input, search_input, iteration_input, hm]
      rw [hred] at hmode ⊢
      rcases regular_input_cases .Down s with ⟨h1, h2, _⟩ | ⟨_, h2, _⟩
      · rw [h1, hm] at hmode
        cases hmode
      · exact h2
    | Up =>
      have hred : input corp .Up s = regular_input .Up s := by
        simp [input, search_input, iteration_input, hm]
      rw [hred] at hmode ⊢
      rcases regular_input_cases .Up s with ⟨h1, h2, _⟩ | ⟨_, h2, _⟩
      · rw [h1, hm] at hmode
        cases hmode
      · exact h2
    | PageDown =>
      have hred : input corp .PageDown s = regular_input .PageDown s := by
        simp [input, search_input, iteration_input, hm]
      rw [hred] at hmode ⊢
      rcases regular_input_cases .PageDown s with ⟨h1, h2, _⟩ | ⟨_, h2, _⟩
      · rw [h1, hm] at hmode
        cases hmode
      · exact h2
    | PageUp =>
      have hred : input corp .PageUp s = regular_input .PageUp s := by
        simp [input, search_input, iteration_input, hm]
      rw [hred] at hmode ⊢
      rcases regular_input_cases .PageUp s with ⟨h1, h2, _⟩ | ⟨_, h2, _⟩
      · rw [h1, hm] at hmode
        cases hmode
      · exact h2
    | Enter =>
      have hred : input corp .Enter s = regular_input .Enter s := by
        simp [input, search_input, iteration_input, hm]
      rw [hred] at hmode ⊢
      rcases regular_input_cases .Enter s with ⟨h1, h2, _⟩ | ⟨_, h2, _⟩
      · rw [h1, hm] at hmode
        cases hmode
      · exact h2
    | Backspace =>
      have hred : input corp .Backspace s = regular_input .Backspace s := by
        simp [input, search_input, iteration_input, hm]
      rw [hred] at hmode ⊢
      rcases regular_input_cases .Backspace s with ⟨h1, h2, _⟩ | ⟨_, h2, _⟩
      · rw [h1, hm] at hmode
        cases hmode
      · exact h2
    | Home =>
      have hred : input corp .Home s = regular_input .Home s := by
        simp [input, search_input, iteration_input, hm]
      rw [hred] at hmode ⊢
      rcases regular_input_cases .Home s with ⟨h1, h2, _⟩ | ⟨_, h2, _⟩
      · rw [h1, hm] at hmode
        cases hmode
      · exact h2
    | End =>
      have hred : input corp .End s = regular_input .End s := by
        simp [input, search_input, iteration_input, hm]
      rw [hred] at hmode ⊢
      rcases regular_input_cases .End s with ⟨h1, h2, _⟩ | ⟨_, h2, _⟩
      · rw [h1, hm] at hmode
        cases hmode
      · exact h2
    | Left =>
      have hred : input corp .Left s = regular_input .Left s := by
        simp [input, search_input, iteration_input, hm]
      rw [hred] at hmode ⊢
      rcases regular_input_cases .Left s with ⟨h1, h2, _⟩ | ⟨_, h2, _⟩
      · rw [h1, hm] at hmode
        cases hmode
      · exact h2
    | Right =>
      have hred : input corp .Right s = regular_input .Right s := by
        simp [input, search_input, iteration_input, hm]
      rw [hred] at hmode ⊢
      rcases regular_input_cases .Right s with ⟨h1, h2, _⟩ | ⟨_, h2, _⟩
      · rw [h1, hm] at hmode
        cases hmode
      · exact h2

/-- Loop invariant: in every reachable state, being in search-input mode
implies the result set is empty (opening search input clears it, and
nothing repopulates it before commit). -/
theorem reachable_invariant (corp : List (List (List Char))) (s : AppState)
    (h : Reachable corp s) : s.mode = .Input → s.results = [] := by
  unfold Reachable at h
  induction h with
  | refl => intro _; rfl
  | tail hab hbc ih =>
    cases hbc with
    | key ev => exact input_preserves_invariant corp ev _ ih
    | draw hh rh => exact fun hmode => ih hmode

/-! ## C9: committing an empty query turns search off -/

/-- C9: in any reachable state in Input mode with an empty query, Enter
turns search off and changes nothing else — the result state is exactly
the old state with `mode := Off`, no rebuild is invoked, and its result
set is empty (it already was, by the loop invariant) rather than matching
everything.  Moreover the standalone index build `State::update` given an
empty query leaves an empty result set and reports 0 matches. -/
theorem empty_commit_turns_search_off (corp : List (List (List Char)))
    (s : AppState) (hreach : Reachable corp s)
    (hmode : s.mode = .Input) (hinput : s.input = []) :
    input corp .Enter s = { s with mode := .Off } ∧
    (input corp .Enter s).results = [] ∧
    (∀ (st : QuickState) (c2 : List (List (List Char))), st.input = [] →
      (State_update st c2).1.results = [] ∧ (State_update st c2).2 = 0) := by
  have hres : s.results = [] := reachable_invariant corp s hreach hmode
  have hred : input corp .Enter s = { s with mode := .Off } := by
    simp [input, search_input, hmode, hinput]
  refine ⟨hred, ?_, ?_⟩
  · rw [hred]
    exact hres
  · intro st c2 hempty
    simp [State_update, hempty]

/-! ## C1: rebuild determinism -/

/-- The corpus of the C1 counterexample: one row, one column, text "a". -/
def corpC1 : List (List (List Char)) := [[['a']]]

/-- The pre-build app state of the C1 counterexample: committed query "a",
cleared result set. -/
def stC1 : AppState := { initApp with input := ['a'] }

/-- C1 counterexample: on the corpus ["a"] with the query "a" (unchanged
throughout), a first invocation of `App::update_results` yields the
non-empty result set {line 0}; invoking it a second time does not
reproduce that ordered collection — the stubbed subset-filter branch
(`results.iter().filter_map(|_| None)`) collects the empty set instead. -/
theorem filterMap_none (l : List MatchedLine) :
    (l.filterMap fun _ => (none : Option MatchedLine)) = [] := by
  induction l <;> simp [*]

theorem update_results_nonempty (corp : List (List (List Char)))
    (s : AppState) (h : s.results ≠ []) :
    (update_results corp s).results = [] := by
  unfold update_results
  rw [if_neg (by simp [h])]
  simp [filterMap_none]

theorem rebuild_claim_counterexample :
    (update_results corpC1 stC1).results = [mkLine 0] ∧
    (update_results corpC1 (update_results corpC1 stC1)).results = [] ∧
    (update_results corpC1 (update_results corpC1 stC1)).results ≠
      (update_results corpC1 stC1).results := by
  have h1 : (update_results corpC1 stC1).results = [mkLine 0] := by
    simp [update_results, stC1, corpC1, initApp, scanResults, matchedColumns,
      matchIndicesFrom, List.enum, mkLine]
  have h2 : (update_results corpC1 (update_results corpC1 stC1)).results = [] :=
    update_results_nonempty corpC1 _ (by rw [h1]; simp)
  refine ⟨h1, h2, ?_⟩
  rw [h1, h2]
  simp

/-- C1 (amended): the committed rebuild is deterministic because the
commit path always starts from an empty result set (opening search input
clears it — the loop invariant): committing the same query from any two
reachable input-mode states yields identical ordered results, and the
standalone `State::update` rebuild gives identical results on repeated
invocation.  Invoked directly on a non-empty result set, however,
`App::update_results` yields the empty set (its stubbed subset-filter
branch), not the same collection (see the counterexample). -/
theorem rebuild_deterministic (corp : List (List (List Char))) (q : List Char)
    (s1 s2 : AppState) (h1 : Reachable corp s1) (h2 : Reachable corp s2)
    (hm1 : s1.mode = .Input) (hm2 : s2.mode = .Input)
    (hq1 : s1.input = q) (hq2 : s2.input = q) :
    (input corp .Enter s1).results = (input corp .Enter s2).results ∧
    (∀ (st : QuickState) (c2 : List (List (List Char))),
      (State_update (State_update st c2).1 c2).1.results =
        (State_update st c2).1.results) := by
  have hr1 : s1.results = [] := reachable_invariant corp s1 h1 hm1
  have hr2 : s2.results = [] := reachable_invariant corp s2 h2 hm2
  constructor
  · have key : ∀ s : AppState, s.mode = .Input → s.input = q →
        s.results = [] → (input corp .Enter s).results =
          if q = [] then [] else scanResults q corp := by
      intro s hm hq hr
      by_cases hqe : q = []
      · rw [if_pos hqe]
        have : input corp .Enter s = { s with mode := .Off } := by
          simp [input, search_input, hm, hq, hqe]
        rw [this]
        exact hr
      · rw [if_neg hqe]
        have hstep : input corp .Enter s =
            jump_to_nearest_result
              (update_results corp { s with mode := .Iteration }) := by
          simp only [input, search_input, hm]
          rw [hq, if_neg hqe]
        rw [hstep, (jump_to_nearest_frame _).2.1]
        unfold update_results
        rw [if_pos (by simp [hr])]
        simp [hq]
    rw [key s1 hm1 hq1 hr1, key s2 hm2 hq2 hr2]
  · intro st c2
    by_cases h : st.input = []
    · simp [State_update, h]
    · simp [State_update, h]

/-! ## C10: the jump-to-next-match skip -/

/-- C10: in iteration mode, `jump_to_next_result` behaves as follows.  When
the selected line is itself a matched line, the selection moves to the
matched line with the smallest `line_index` strictly greater than it (the
match at the selection is the first element of the `Excluded(sentinel)`
range, and `advance_by(1)` consumes it), and the command is a no-op when no
later match exists.  When the selected line is not matched, `advance_by(1)`
consumes the first match after the selection, so the selection moves to the
second match after it — and the command is a no-op when at most one match
lies strictly after the selection. -/
theorem jump_to_next_result_spec (st : AppState)
    (hs : LinesSorted st.results) (hcols : ColumnsNonempty st.results) :
    ((∃ m ∈ st.results, m.index = st.selected) →
      ((∀ e ∈ st.results, e.index ≤ st.selected) →
        jump_to_next_result st = st) ∧
      (∀ b ∈ st.results, st.selected < b.index →
        (∀ e ∈ st.results, st.selected < e.index → b.index ≤ e.index) →
        (jump_to_next_result st).selected = b.index)) ∧
    ((∀ m ∈ st.results, m.index ≠ st.selected) →
      ((∀ b1 ∈ st.results, ∀ b2 ∈ st.results,
          ¬(st.selected < b1.index ∧ b1.index < b2.index)) →
        jump_to_next_result st = st) ∧
      (∀ b1 ∈ st.results, ∀ b2 ∈ st.results,
        st.selected < b1.index → b1.index < b2.index →
        (∀ e ∈ st.results, st.selected < e.index → b1.index ≤ e.index) →
        (∀ e ∈ st.results, b1.index < e.index → b2.index ≤ e.index) →
        (jump_to_next_result st).selected = b2.index)) := by
  have hpred : ∀ e ∈ st.results,
      (decide (lineCompare e (MatchedLine.sentinel st.selected) = .gt)
        = true) ↔ (st.selected < e.index ∨ e.index = st.selected) := by
    intro e he
    rw [decide_eq_true_eq, lineCompare_sentinel_eq_gt]
    have := hcols e he
    constructor
    · rintro (h | ⟨h, _⟩)
      · exact Or.inl h
      · exact Or.inr h
    · rintro (h | h)
      · exact Or.inl h
      · exact Or.inr ⟨h, this⟩
  have hdef : jump_to_next_result st =
      match st.results.filter fun e =>
        lineCompare e (MatchedLine.sentinel st.selected) = .gt with
      | [] => st
      | _ :: rest => select st ((rest.head?).map MatchedLine.index) := rfl
  have hsorted : LinesSorted (st.results.filter fun e =>
      lineCompare e (MatchedLine.sentinel st.selected) = .gt) :=
    List.Chain'.sublist hs (List.filter_sublist _)
  have hmemf : ∀ e, e ∈ (st.results.filter fun e =>
      lineCompare e (MatchedLine.sentinel st.selected) = .gt) ↔
      (e ∈ st.results ∧ (st.selected < e.index ∨ e.index = st.selected)) := by
    intro e
    rw [List.mem_filter]
    constructor
    · intro ⟨h1, h2⟩
      exact ⟨h1, (hpred e h1).mp h2⟩
    · intro ⟨h1, h2⟩
      exact ⟨h1, (hpred e h1).mpr h2⟩
  constructor
  · rintro ⟨m, hm, hmi⟩
    constructor
    · intro hall
      rcases hr : st.results.filter (fun e =>
          lineCompare e (MatchedLine.sentinel st.selected) = .gt) with _ | ⟨r0, rest⟩
      · rw [hdef, hr]
      · rw [hdef, hr]
        show select st (Option.map MatchedLine.index rest.head?) = st
        rcases hrest : rest.head? with _ | r1
        · simp [select_none]
        · exfalso
          obtain ⟨t2, ht2⟩ := List.head?_eq_some_iff.mp hrest
          have hr1mem : r1 ∈ st.results ∧
              (st.selected < r1.index ∨ r1.index = st.selected) := by
            rw [← hmemf]
            rw [hr, ht2]
            exact List.mem_cons_of_mem r0 (List.mem_cons_self r1 t2)
          have hr0mem : r0 ∈ st.results ∧
              (st.selected < r0.index ∨ r0.index = st.selected) := by
            rw [← hmemf]
            rw [hr]
            exact List.mem_cons_self r0 _
          have hlt : r0.index < r1.index := by
            have := hsorted
            rw [hr, ht2] at this
            exact (List.chain'_cons.mp this).1
          have h1 := hall r0 hr0mem.1
          have h2 := hall r1 hr1mem.1
          rcases hr0mem.2 with h3 | h3 <;> rcases hr1mem.2 with h4 | h4 <;> omega
    · intro b hb hbsel hbmin
      rcases hr : st.results.filter (fun e =>
          lineCompare e (MatchedLine.sentinel st.selected) = .gt) with _ | ⟨r0, rest⟩
      · exfalso
        have : b ∈ st.results.filter (fun e =>
            lineCompare e (MatchedLine.sentinel st.selected) = .gt) := by
          rw [hmemf]
          exact ⟨hb, Or.inl hbsel⟩
        rw [hr] at this
        cases this
      · -- the head of the range is the match at the selection
        have hr0mem : r0 ∈ st.results ∧
            (st.selected < r0.index ∨ r0.index = st.selected) := by
          rw [← hmemf, hr]
          exact List.mem_cons_self r0 _
        have hminr0 : ∀ e, e ∈ st.results →
            (st.selected < e.index ∨ e.index = st.selected) →
            r0.index ≤ e.index := by
          intro e he hcond
          have : e ∈ st.results.filter (fun e =>
              lineCompare e (MatchedLine.sentinel st.selected) = .gt) := by
            rw [hmemf]
            exact ⟨he, hcond⟩
          rw [hr] at this
          rcases List.mem_cons.mp this with rfl | hmem
          · exact le_refl _
          · have hp := List.chain'_iff_pairwise.mp (hr ▸ hsorted)
            exact le_of_lt (List.rel_of_pairwise_cons hp hmem)
        have hr0sel : r0.index = st.selected := by
          have h1 := hminr0 m hm (Or.inr hmi)
          rcases hr0mem.2 with h2 | h2
          · omega
          · exact h2
        -- b is in the tail; the tail head is minimal there, so it is b
        have hbmem : b ∈ r0 :: rest := by
          rw [← hr, hmemf]
          exact ⟨hb, Or.inl hbsel⟩
        have hbrest : b ∈ rest := by
          rcases List.mem_cons.mp hbmem with rfl | h
          · omega
          · exact h
        rcases hrest : rest.head? with _ | r1
        · rw [List.head?_eq_none_iff] at hrest
          rw [hrest] at hbrest
          cases hbrest
        · have hsorted2 : LinesSorted (r0 :: rest) := hr ▸ hsorted
          have hr1min : ∀ e ∈ rest, r1.index ≤ e.index :=
            sorted_head?_min (List.chain'_cons'.mp hsorted2).2 hrest
          have hr1mem : r1 ∈ rest := List.mem_of_mem_head? hrest
          have hr1res : r1 ∈ st.results ∧
              (st.selected < r1.index ∨ r1.index = st.selected) := by
            rw [← hmemf, hr]
            exact List.mem_cons_of_mem r0 hr1mem
          have hr1gt : st.selected < r1.index := by
            have h1 : r0.index < r1.index :=
              (List.chain'_cons'.mp hsorted2).1 r1 hrest
            rcases hr1res.2 with h2 | h2
            · exact h2
            · omega
          have hr1b : r1.index = b.index := by
            have h1 := hr1min b hbrest
            have h2 := hbmin r1 hr1res.1 hr1gt
            omega
          have heq : r1 = b := sorted_index_inj hs hr1res.1 hb hr1b
          rw [hdef, hr]
          show (select st (Option.map MatchedLine.index rest.head?)).selected =
            b.index
          rw [hrest]
          simp only [Option.map_some']
          rw [heq]
          exact select_some_selected st b.index
  · intro hnone
    have hmemf2 : ∀ e, e ∈ (st.results.filter fun e =>
        lineCompare e (MatchedLine.sentinel st.selected) = .gt) ↔
        (e ∈ st.results ∧ st.selected < e.index) := by
      intro e
      rw [hmemf]
      constructor
      · intro ⟨h1, h2⟩
        rcases h2 with h2 | h2
        · exact ⟨h1, h2⟩
        · exact absurd h2 (hnone e h1)
      · intro ⟨h1, h2⟩
        exact ⟨h1, Or.inl h2⟩
    constructor
    · intro hone
      rcases hr : st.results.filter (fun e =>
          lineCompare e (MatchedLine.sentinel st.selected) = .gt) with _ | ⟨r0, rest⟩
      · rw [hdef, hr]
      · rcases hrest : rest.head? with _ | r1
        · rw [hdef, hr]
          show select st (Option.map MatchedLine.index rest.head?) = st
          rw [hrest]
          simp [select_none]
        · exfalso
          have hr1mem : r1 ∈ rest := List.mem_of_mem_head? hrest
          have hr0res := (hmemf2 r0).mp (hr ▸ List.mem_cons_self r0 rest)
          have hr1res := (hmemf2 r1).mp
            (hr ▸ List.mem_cons_of_mem r0 hr1mem)
          have hsorted2 : LinesSorted (r0 :: rest) := hr ▸ hsorted
          have hlt : r0.index < r1.index :=
            List.rel_of_pairwise_cons
              (List.chain'_iff_pairwise.mp hsorted2) hr1mem
          exact hone r0 hr0res.1 r1 hr1res.1 ⟨hr0res.2, hlt⟩
    · intro b1 hb1 b2 hb2 hsel1 h12 hmin1 hmin2
      rcases hr : st.results.filter (fun e =>
          lineCompare e (MatchedLine.sentinel st.selected) = .gt) with _ | ⟨r0, rest⟩
      · exfalso
        have : b1 ∈ st.results.filter (fun e =>
            lineCompare e (MatchedLine.sentinel st.selected) = .gt) := by
          rw [hmemf2]
          exact ⟨hb1, hsel1⟩
        rw [hr] at this
        cases this
      · have hsorted2 : LinesSorted (r0 :: rest) := hr ▸ hsorted
        have hr0res := (hmemf2 r0).mp (hr ▸ List.mem_cons_self r0 rest)
        have hr0min : ∀ e, e ∈ st.results → st.selected < e.index →
            r0.index ≤ e.index := by
          intro e he hcond
          have : e ∈ r0 :: rest := by
            rw [← hr, hmemf2]
            exact ⟨he, hcond⟩
          rcases List.mem_cons.mp this with rfl | hmem
          · exact le_refl _
          · exact le_of_lt (List.rel_of_pairwise_cons
              (List.chain'_iff_pairwise.mp hsorted2) hmem)
        have hr0b1 : r0 = b1 := by
          apply sorted_index_inj hs hr0res.1 hb1
          have h1 := hr0min b1 hb1 hsel1
          have h2 := hmin1 r0 hr0res.1 hr0res.2
          omega
        have hb2mem : b2 ∈ rest := by
          have : b2 ∈ r0 :: rest := by
            rw [← hr, hmemf2]
            exact ⟨hb2, by omega⟩
          rcases List.mem_cons.mp this with rfl | h
          · have := congrArg MatchedLine.index hr0b1
            omega
          · exact h
        rcases hrest : rest.head? with _ | r1
        · rw [List.head?_eq_none_iff] at hrest
          rw [hrest] at hb2mem
          cases hb2mem
        · have hr1mem : r1 ∈ rest := List.mem_of_mem_head? hrest
          have hr1min : ∀ e ∈ rest, r1.index ≤ e.index :=
            sorted_head?_min (List.chain'_cons'.mp hsorted2).2 hrest
          have hr1res := (hmemf2 r1).mp
            (hr ▸ List.mem_cons_of_mem r0 hr1mem)
          have hr1b1 : b1.index < r1.index := by
            rw [← hr0b1]
            exact List.rel_of_pairwise_cons
              (List.chain'_iff_pairwise.mp hsorted2) hr1mem
          have hr1b2 : r1.index = b2.index := by
            have h1 := hr1min b2 hb2mem
            have h2 := hmin2 r1 hr1res.1 hr1b1
            omega
          have heq : r1 = b2 := sorted_index_inj hs hr1res.1 hb2 hr1b2
          rw [hdef, hr]
          show (select st (Option.map MatchedLine.index rest.head?)).selected =
            b2.index
          rw [hrest]
          simp only [Option.map_some']
          rw [heq]
          exact select_some_selected st b2.index

/-! ## Concrete witnesses -/

theorem next_previous_match_witness :
    next_match [mkLine 1, mkLine 4, mkLine 6] 4 = some (mkLine 6) ∧
    previous_match [mkLine 1, mkLine 4, mkLine 6] 4 = some (mkLine 1) := by
  obtain ⟨-, -, -, -, hadj⟩ :=
    next_previous_match_spec [mkLine 1, mkLine 4, mkLine 6]
      (by simp [LinesSorted, mkLine]) 4
  exact ⟨(hadj (mkLine 4) (by decide) (mkLine 6) (by decide) (by decide)
      (by decide)).1,
    (hadj (mkLine 1) (by decide) (mkLine 4) (by decide) (by decide)
      (by decide)).2⟩

theorem nearest_match_witness :
    ([mkLine 1, mkLine 4] : List MatchedLine) ≠ [] ∧
    (∃ m ∈ [mkLine 1, mkLine 4],
      nearest_match [mkLine 1, mkLine 4] 3 = some m ∧
      (∀ e ∈ [mkLine 1, mkLine 4], distance 3 m.index ≤ distance 3 e.index) ∧
      (∀ e ∈ [mkLine 1, mkLine 4],
        distance 3 e.index = distance 3 m.index → m.index ≤ e.index)) :=
  ⟨by decide,
    (nearest_match_spec [mkLine 1, mkLine 4] 3 (by simp [LinesSorted, mkLine])
      (by decide) (by decide) (by decide)).2.1 (by decide)⟩

/-- The state used by the C4 witness. -/
def sC4 : AppState := { initApp with height := 5, vertical_offset := 3 }

theorem select_spec_witness :
    select sC4 (some 4) = { sC4 with state_selected := some 1 } ∧
    (select sC4 (some 9)).selected = 9 :=
  ⟨((select_spec sC4 4).1 (by decide) (by decide)).1,
    ((select_spec sC4 9).2 (by decide)).2⟩

theorem navigation_saturation_witness :
    (regular_input .PageUp
      { initApp with height := 4, row_heights := [(0, 2)] }).selected = 0 :=
  (navigation_saturation
    { initApp with height := 4, row_heights := [(0, 2)] }).2.2.2.2.1
    (by decide)

theorem wrap_indices_width_bound_witness :
    (∀ x ∈ wrap_indices [0, 3, 4, 7] 9 4, x ∈ [0, 3, 4, 7]) ∧
    (∀ p ∈ lineSpans [0, 3, 4, 7] 9 4, p.2 - p.1 ≤ 2 * 4 - 1) :=
  wrap_indices_width_bound [0, 3, 4, 7] 9 4 (by simp) (by simp)
    (by decide) (by decide)

theorem create_text_single_long_word_witness :
    create_text [0] (List.replicate 7 'b') 3 = [List.replicate 7 'b'] :=
  create_text_single_long_word (List.replicate 7 'b') 3 (by decide)

theorem create_text_flatten_witness :
    (create_text [0, 4] ['a', 'b', 'c', ' ', 'd', 'e', 'f'] 4).flatten =
      ['a', 'b', 'c', ' ', 'd', 'e', 'f'] ∧
    List.Chain' (· < ·) (wrap_indices [0, 4] 7 4) ∧
    (∀ x ∈ wrap_indices [0, 4] 7 4, x < 7) :=
  create_text_flatten [0, 4] ['a', 'b', 'c', ' ', 'd', 'e', 'f'] 4
    (by simp) (by decide)

/-- The input-mode state used by the C9 witness: `/` pressed from the
initial state. -/
def sC9 : AppState := input corpC1 (.Char '/') initApp

theorem empty_commit_witness :
    input corpC1 .Enter sC9 = { sC9 with mode := .Off } ∧
    (input corpC1 .Enter sC9).results = [] :=
  ⟨(empty_commit_turns_search_off corpC1 sC9
      (Relation.ReflTransGen.single (Step.key (.Char '/') initApp))
      (by decide) (by decide)).1,
    (empty_commit_turns_search_off corpC1 sC9
      (Relation.ReflTransGen.single (Step.key (.Char '/') initApp))
      (by decide) (by decide)).2.1⟩

/-- Reachable input-mode states used by the C1 witness: the query "a"
typed directly, and typed as "b", erased, then typed again. -/
def w1C1 : AppState := input corpC1 (.Char 'a') (input corpC1 (.Char '/') initApp)

def w2C1 : AppState :=
  input corpC1 (.Char 'a')
    (input corpC1 .Backspace
      (input corpC1 (.Char 'b') (input corpC1 (.Char '/') initApp)))

theorem rebuild_deterministic_witness :
    (input corpC1 .Enter w1C1).results = (input corpC1 .Enter w2C1).results :=
  (rebuild_deterministic corpC1 ['a'] w1C1 w2C1
    (Relation.ReflTransGen.tail
      (Relation.ReflTransGen.single (Step.key (.Char '/') initApp))
      (Step.key (.Char 'a') _))
    (Relation.ReflTransGen.tail
      (Relation.ReflTransGen.tail
        (Relation.ReflTransGen.tail
          (Relation.ReflTransGen.single (Step.key (.Char '/') initApp))
          (Step.key (.Char 'b') _))
        (Step.key .Backspace _))
      (Step.key (.Char 'a') _))
    (by decide) (by decide) (by decide) (by decide)).1

/-- The iteration-mode state used by the C10 witness: matches at rows
2, 5 and 9, the selection on the matched row 2. -/
def stC10 : AppState :=
  { mode := .Iteration, input := ['e'],
    results := [mkLine 2, mkLine 5, mkLine 9], vertical_offset := 2,
    state_selected := some 0, height := 10, row_heights := [] }

theorem jump_to_next_result_witness :
    (jump_to_next_result stC10).selected = 5 :=
  ((jump_to_next_result_spec stC10
      (by simp [LinesSorted, stC10, initApp, mkLine]) (by decide)).1
    ⟨mkLine 2, by decide, by decide⟩).2 (mkLine 5) (by decide) (by decide)
    (by decide)

end Logcatui
